import Mathlib

/-!
Shallow embedding of `patcher.go`, the package `patcher` of go-el.

The Go package walks a record with `reflect`, addressing one field per dotted
path, and assigns a value into it.  The embedding below keeps the three parts
of the source apart, as the source does:

* `Path.tokenize` / `upperFirst` (path normalisation),
* `patchRecursive` / `locateField` (the walk, returning a field handle),
* `setValue` / `PatchIt` (coercion, assignment and the loop over the patch).

Modelling choices:

* A record is a finite tree (`GoValue`) without sharing; the heap cell a
  `*reflect.Value` refers to is the position of a node in that tree, and an
  assignment through the handle replaces the data at that position.  A Go
  record in which one cell is reached along two field paths (two pointer
  fields that hold the same address) is not such a tree: there an assignment
  along one path is seen along the other.  The properties that depend on
  which positions an assignment changes (the frame of an assignment, the
  commutation of two assignments) are therefore stated for records without
  aliasing.
* A run-time panic of the Go code (`tokens[0]` on an empty slice) is an
  explicit result, `Walk.panics` and `Outcome.panics`.
* A `map[Path]interface{}` is the list of its entries in the order in which
  `range` yields them.
* Go strings are Lean strings, so paths are valid UTF-8.
* `int`, `uint` and `uintptr` are 64 bits wide.
* Three functions of the Go standard library have no finite description that
  could be written here (`unicode.ToUpper`, `strconv.ParseFloat`, the
  conversion `float32(x)`); they are the fields of `Runtime`, and every
  definition that reaches them takes a `Runtime`.
-/

namespace Patcher

/-! ## Data model -/

/-- The kinds of `reflect.Kind`. -/
inductive Kind
  | invalid | bool
  | int | int8 | int16 | int32 | int64
  | uint | uint8 | uint16 | uint32 | uint64 | uintptr
  | float32 | float64 | complex64 | complex128
  | array | chan | func | interface | map | ptr | slice | string | struct
  | unsafePointer
  deriving DecidableEq, Repr

/-- The kinds a terminal value can have: every kind that `patchRecursive`
sends to its `default` branch, the invalid kind excepted. -/
inductive LeafKind
  | bool
  | int | int8 | int16 | int32 | int64
  | uint | uint8 | uint16 | uint32 | uint64 | uintptr
  | float32 | float64 | complex64 | complex128
  | chan | func | map | string | unsafePointer
  deriving DecidableEq, Repr

/-- The `reflect.Kind` of a terminal kind. -/
def LeafKind.toKind : LeafKind → Kind
  | .bool => .bool
  | .int => .int | .int8 => .int8 | .int16 => .int16 | .int32 => .int32
  | .int64 => .int64
  | .uint => .uint | .uint8 => .uint8 | .uint16 => .uint16
  | .uint32 => .uint32 | .uint64 => .uint64 | .uintptr => .uintptr
  | .float32 => .float32 | .float64 => .float64
  | .complex64 => .complex64 | .complex128 => .complex128
  | .chan => .chan | .func => .func | .map => .map | .string => .string
  | .unsafePointer => .unsafePointer

/-- A Go type as `reflect.Type` identifies it: its kind and its name.  Two
types are identical exactly when their descriptors are equal, so `int` and a
named type `MyInt int` differ by their names. -/
structure GoType where
  kind : Kind
  name : String
  deriving DecidableEq, Repr

/-- The data held by a terminal value.  Floating-point data are the IEEE-754
binary64 bit pattern of the `float64` that `reflect` hands around; data of
kinds the patcher never interprets (maps, channels, complex numbers) are a
code. -/
inductive Payload
  | int (n : Int)
  | uint (n : Nat)
  | float (bits : Nat)
  | str (s : String)
  | bool (b : Bool)
  | other (code : Nat)
  deriving DecidableEq, Repr

mutual
/-- What a `reflect.Value` refers to.  `invalid` is the zero `reflect.Value`
(the `Elem()` of a nil pointer or of an empty interface). -/
inductive GoValue
  | invalid
  | leaf (kind : LeafKind) (tyName : String) (data : Payload)
  | ptr (elem : GoValue)
  | iface (elem : GoValue)
  | struct (fields : Fields)
  | seq (slice : Bool) (data : Payload)
  deriving DecidableEq
/-- The declared fields of a struct, in declaration order: name, whether the
name is exported, whether the field is embedded, and the field's value. -/
inductive Fields
  | nil
  | cons (name : String) (exported embedded : Bool) (value : GoValue)
      (rest : Fields)
  deriving DecidableEq
end

/-- The permission bits of a `reflect.Value`: `flagAddr`, `flagStickyRO` and
`flagEmbedRO`. -/
structure Flags where
  addr : Bool
  stickyRO : Bool
  embedRO : Bool
  deriving DecidableEq, Repr

/-- Flags of `reflect.ValueOf(target)`. -/
def Flags.ofValueOf : Flags := ⟨false, false, false⟩

/-- Flags of `v.Elem()` for a pointer `v`: addressable, read-only bits kept. -/
def Flags.ptrElem (f : Flags) : Flags := ⟨true, f.stickyRO, f.embedRO⟩

/-- Flags of `v.Elem()` for an interface `v`: not addressable, and
`flagStickyRO` when `v` carries either read-only bit. -/
def Flags.ifaceElem (f : Flags) : Flags := ⟨false, f.stickyRO || f.embedRO, false⟩

/-- Flags of `v.Field(i)`: `flagAddr` and `flagStickyRO` are inherited,
`flagEmbedRO` is cleared, and an unexported field forces a read-only bit. -/
def Flags.field (f : Flags) (exported embedded : Bool) : Flags :=
  ⟨f.addr, f.stickyRO || (!exported && !embedded), !exported && embedded⟩

/-- The test of `reflect.Value.CanSet`. -/
def Flags.canSet (f : Flags) : Bool := f.addr && !f.stickyRO && !f.embedRO

/-- A `*reflect.Value` returned by the walk: the position of the terminal
value in the record (one index per step: `0` through a pointer or an
interface, the field index through a struct), its type and its flags. -/
structure Handle where
  loc : List Nat
  kind : LeafKind
  tyName : String
  flags : Flags
  deriving DecidableEq, Repr

/-- The type `fieldValue.Type()` of a handle. -/
def Handle.type (h : Handle) : GoType := ⟨h.kind.toKind, h.tyName⟩

/-- The test of `fieldValue.CanSet()`. -/
def Handle.canSet (h : Handle) : Bool := h.flags.canSet

/-- The right-hand side of a patch entry, an `interface{}`: nil, or a value
with its dynamic type. -/
inductive RightValue
  | nil
  | val (ty : GoType) (data : Payload)
  deriving DecidableEq, Repr

/-- The variable `NumberType`: `reflect.TypeOf(json.Number(""))`, a named
string type. -/
def NumberType : GoType := ⟨.string, "json.Number"⟩

/-- The result of `reflect.TypeOf(rightValue)`; `none` is the nil type. -/
def RightValue.typeOf : RightValue → Option GoType
  | .nil => none
  | .val ty _ => some ty

/-- The text of a `json.Number` (a string type), `string(nv)`. -/
def Payload.text : Payload → String
  | .str s => s
  | _ => ""

/-- The text `string(rightValue.(json.Number))`. -/
def RightValue.text : RightValue → String
  | .nil => ""
  | .val _ d => d.text

/-- The type `Path`. -/
abbrev Path := String

/-- The type `Patch`, a `map[Path]interface{}`, as the list of its entries in
the order in which `range patch` yields them; the keys of a map are pairwise
different. -/
abbrev Patch := List (Path × RightValue)

/-- The two causes of a `*strconv.NumError`. -/
inductive ParseErr
  | ErrSyntax
  | ErrRange
  deriving DecidableEq, Repr

/-- The standard-library functions the patcher calls and that are taken as
given: `unicode.ToUpper` on a code point; `strconv.ParseFloat(s, bitSize)`,
which yields the bit pattern of the parsed `float64`, or the cause of the
error it returns; and the conversion `float32(x)` done by `SetFloat`, as the
bit pattern of the converted value. -/
structure Runtime where
  toUpper : Char → Char
  parseFloat : String → Nat → Except ParseErr Nat
  toFloat32 : Nat → Nat

/-! ## Path tokenizer -/

/-- The function `upperFirst`: the empty string stays empty, otherwise the
first code point is upper-cased and the rest kept. -/
def upperFirst (rt : Runtime) (s : String) : String :=
  match s.data with
  | [] => ""
  | r :: rest => String.mk (rt.toUpper r :: rest)

/-- The segments of `strings.Split(s, ".")` on the characters of `s`: the
current segment `cur` is closed at every delimiter and at the end. -/
def splitDotAux : List Char → List Char → List String
  | [], cur => [String.mk cur.reverse]
  | c :: cs, cur =>
    if c = '.' then String.mk cur.reverse :: splitDotAux cs []
    else splitDotAux cs (c :: cur)

/-- The call `strings.Split(s, ".")`. -/
def splitDot (s : String) : List String := splitDotAux s.data []

/-- The method `Path.tokenize`. -/
def tokenize (rt : Runtime) (p : Path) : List String :=
  (splitDot p).map (upperFirst rt)

/-! ## Errors -/

/-- The errors built by `fmt.Errorf` in the source, one constructor per call
site, with the arguments handed to the format. -/
inductive PatchError
  /-- Line 59, `locateField`: no handle was found; carries `string(path)`. -/
  | pathNotResolved (path : Path)
  /-- Line 62, `locateField`: the handle is not settable; carries
  `string(path)` and `fieldName`. -/
  | fieldNotWritable (path : Path) (fieldName : String)
  /-- Lines 79 and 87, `setValue`: an integer could not be parsed or
  overflows; carries `fieldName`, `rightValue` (the text of the number),
  `fieldValue.Type()` and `err`. -/
  | numberFailure (fieldName : String) (number : String) (fieldType : GoType)
      (err : Option ParseErr)
  /-- Line 95, `setValue`: a floating-point number could not be parsed or
  overflows; carries `fieldName`, `fieldValue`, `fieldValue.Type()` and
  `err`. -/
  | floatFailure (fieldName : String) (fieldValue : Handle)
      (fieldType : GoType) (err : Option ParseErr)
  /-- Line 101, `setValue`: a number for a field that is not numeric; carries
  `fieldName`, `fieldValue` and `fieldValue.Kind()`. -/
  | unsupportedKind (fieldName : String) (fieldValue : Handle) (kind : Kind)
  /-- Line 105, `setValue`: the types differ; carries `fieldName`, `rvType`
  and `fieldValue.Type()`. -/
  | typeMismatch (fieldName : String) (rvType : Option GoType)
      (fieldType : GoType)
  deriving DecidableEq, Repr

/-! ## Field locator -/

/-- The result of `patchRecursive`: a handle with the field name, the pair
`(nil, "")`, or a run-time panic. -/
inductive Walk
  | found (h : Handle) (fieldName : String)
  | notFound
  | panics
  deriving DecidableEq, Repr

mutual
/-- The method `patchRecursive`.  `loc` and `fl` are the position and the
flags of `targetValue`; `path` is accumulated as in the source. -/
def patchRecursive (fieldName : String) (loc : List Nat) (fl : Flags) :
    GoValue → List String → String → Walk
  | .ptr elem, tokens, path =>
    patchRecursive fieldName (loc ++ [0]) fl.ptrElem elem tokens path
  | .iface elem, tokens, path =>
    patchRecursive fieldName (loc ++ [0]) fl.ifaceElem elem tokens path
  | .struct fields, tokens, path => scanFields loc fl 0 fields tokens path
  | .seq _ _, _, _ => .notFound
  | .leaf kind tyName _, _, _ => .found ⟨loc, kind, tyName, fl⟩ fieldName
  | .invalid, _, _ => .notFound
/-- The loop `for i := 0; i < targetValue.NumField(); i++` of the struct case,
from field `i` on; reading `tokens[0]` on an empty token list panics. -/
def scanFields (loc : List Nat) (fl : Flags) (i : Nat) :
    Fields → List String → String → Walk
  | .nil, _, _ => .notFound
  | .cons _ _ _ _ _, [], _ => .panics
  | .cons name exported embedded value rest, currentTok :: toks, path =>
    if name = currentTok then
      patchRecursive name (loc ++ [i]) (fl.field exported embedded) value toks
        (path ++ "." ++ currentTok)
    else scanFields loc fl (i + 1) rest (currentTok :: toks) path
end

/-- The method `locateField`, as `PatchIt` reads it: the field name and handle
when `err == nil`, otherwise the error (the values returned next to an error
are not read by the caller). -/
inductive Located
  | ok (fieldName : String) (fieldValue : Handle)
  | err (e : PatchError)
  | panics
  deriving DecidableEq, Repr

/-- The method `locateField`. -/
def locateField (rt : Runtime) (modified : GoValue) (path : Path) : Located :=
  match patchRecursive "" [] Flags.ofValueOf modified (tokenize rt path) "" with
  | .panics => .panics
  | .notFound => .err (.pathNotResolved path)
  | .found fieldValue fieldName =>
    if !fieldValue.canSet then .err (.fieldNotWritable path fieldName)
    else .ok fieldName fieldValue

/-! ## Number parsing and range checks

`strconv.ParseUint` and `strconv.ParseInt` are modelled for the only
arguments the source passes them: base 10, bit size 64.  Machine integers are
`Nat` and `Int` with the wrap-around written out. -/

/-- The loop of `strconv.ParseUint(s, 10, 64)` over the bytes of `s`, with
the value `n` read so far: a byte that is not a decimal digit is a syntax
error; a value beyond `1<<64 - 1` is a range error. -/
def parseUintLoop : List Char → Nat → Except ParseErr Nat
  | [], n => .ok n
  | c :: cs, n =>
    if '0' ≤ c ∧ c ≤ '9' then
      let d := c.toNat - '0'.toNat
      -- `cutoff = maxUint64/10 + 1`: `n*10` overflows
      if n ≥ (2 ^ 64 - 1) / 10 + 1 then .error .ErrRange
      else
        let n10 := n * 10
        let n1 := (n10 + d) % 2 ^ 64
        if n1 < n10 ∨ n1 > 2 ^ 64 - 1 then .error .ErrRange
        else parseUintLoop cs n1
    else .error .ErrSyntax

/-- The call `strconv.ParseUint(s, 10, 64)`. -/
def parseUint (s : String) : Except ParseErr Nat :=
  if s.data = [] then .error .ErrSyntax else parseUintLoop s.data 0

/-- The call `strconv.ParseInt(s, 10, 64)`: an optional sign, then
`ParseUint`, then the check against `cutoff = 1<<63`. -/
def parseInt (s : String) : Except ParseErr Int :=
  match s.data with
  | [] => .error .ErrSyntax
  | c :: cs =>
    let neg := decide (c = '-')
    let rest := if c = '+' ∨ c = '-' then cs else c :: cs
    match (if rest = [] then .error .ErrSyntax else parseUintLoop rest 0 :
        Except ParseErr Nat) with
    | .error .ErrSyntax => .error .ErrSyntax
    | .error .ErrRange => .error .ErrRange
    | .ok un =>
      if !neg ∧ un ≥ 2 ^ 63 then .error .ErrRange
      else if neg ∧ un > 2 ^ 63 then .error .ErrRange
      else .ok (if neg then -(un : Int) else (un : Int))

/-- The size in bits, `Type().Size() * 8`, of the integer and floating-point
kinds on a 64-bit platform (`int`, `uint` and `uintptr` are 64 bits wide);
`0` for the other kinds, whose size is never read. -/
def LeafKind.bits : LeafKind → Nat
  | .int8 | .uint8 => 8
  | .int16 | .uint16 => 16
  | .int32 | .uint32 | .float32 => 32
  | .int | .int64 | .uint | .uint64 | .uintptr | .float64 => 64
  | _ => 0

/-- Wrap-around of a signed integer of `w` bits. -/
def wrapInt (w : Nat) (x : Int) : Int :=
  (x + 2 ^ (w - 1)) % 2 ^ w - 2 ^ (w - 1)

/-- The method `reflect.Value.OverflowInt` for a field of `bitSize` bits:
`trunc := (x << (64 - bitSize)) >> (64 - bitSize); return x != trunc`, the
left shift wrapping in `int64` and the right shift arithmetic. -/
def overflowInt (bitSize : Nat) (x : Int) : Bool :=
  let trunc := wrapInt 64 (x * 2 ^ (64 - bitSize)) / 2 ^ (64 - bitSize)
  x != trunc

/-- The method `reflect.Value.OverflowUint` for a field of `bitSize` bits, the
shifts being those of `uint64`. -/
def overflowUint (bitSize : Nat) (x : Nat) : Bool :=
  let trunc := (x * 2 ^ (64 - bitSize)) % 2 ^ 64 / 2 ^ (64 - bitSize)
  x != trunc

/-- The method `reflect.Value.OverflowFloat` on the bit pattern of `x`:
`false` for a `float64` field; for a `float32` field
`math.MaxFloat32 < |x| && |x| <= math.MaxFloat64`, which on the bit patterns
of non-negative values is the order of the patterns. -/
def overflowFloat (bitSize : Nat) (x : Nat) : Bool :=
  if bitSize = 32 then
    let a := x % 2 ^ 63
    decide (0x47EFFFFFE0000000 < a) && decide (a ≤ 0x7FEFFFFFFFFFFFFF)
  else false

/-! ## The record as mutable state -/

mutual
/-- Assignment through a handle: the record in which the terminal value at
position `loc` holds `d`.  A position that does not end on a terminal value
leaves the record as it is.  The record being a tree without aliasing, the
cell written is reached along `loc` only and no other position changes. -/
def GoValue.setAt : GoValue → List Nat → Payload → GoValue
  | .leaf kind tyName _, [], d => .leaf kind tyName d
  | .ptr elem, 0 :: loc, d => .ptr (elem.setAt loc d)
  | .iface elem, 0 :: loc, d => .iface (elem.setAt loc d)
  | .struct fields, i :: loc, d => .struct (fields.setAt i loc d)
  | v, _, _ => v
/-- Assignment below field `i` of a struct. -/
def Fields.setAt : Fields → Nat → List Nat → Payload → Fields
  | .nil, _, _, _ => .nil
  | .cons name exported embedded value rest, 0, loc, d =>
    .cons name exported embedded (value.setAt loc d) rest
  | .cons name exported embedded value rest, i + 1, loc, d =>
    .cons name exported embedded value (rest.setAt i loc d)
end

mutual
/-- The value at a position of the record. -/
def GoValue.getAt : GoValue → List Nat → Option GoValue
  | v, [] => some v
  | .ptr elem, 0 :: loc => elem.getAt loc
  | .iface elem, 0 :: loc => elem.getAt loc
  | .struct fields, i :: loc => fields.getAt i loc
  | _, _ :: _ => none
/-- The value at a position below field `i` of a struct. -/
def Fields.getAt : Fields → Nat → List Nat → Option GoValue
  | .nil, _, _ => none
  | .cons _ _ _ value _, 0, loc => value.getAt loc
  | .cons _ _ _ _ rest, i + 1, loc => rest.getAt i loc
end

/-! ## Value coercer -/

/-- The method `setValue`.  The record is returned with the error: it is the
record given when an error is returned, since every `return fmt.Errorf(...)`
of the source precedes the assignment of its branch. -/
def setValue (rt : Runtime) (target : GoValue) (fieldName : String)
    (fieldValue : Handle) (rightValue : RightValue) :
    GoValue × Option PatchError :=
  let rvType := rightValue.typeOf
  if rvType = some NumberType then
    let nv := rightValue.text
    match fieldValue.kind with
    | .int | .int8 | .int16 | .int32 | .int64 =>
      match parseInt nv with
      | .error err =>
        (target, some (.numberFailure fieldName nv fieldValue.type (some err)))
      | .ok n =>
        if overflowInt fieldValue.kind.bits n then
          (target, some (.numberFailure fieldName nv fieldValue.type none))
        else
          -- `SetInt(n)` converts to the field's width
          (target.setAt fieldValue.loc (.int (wrapInt fieldValue.kind.bits n)),
            none)
    | .uint | .uint8 | .uint16 | .uint32 | .uint64 | .uintptr =>
      match parseUint nv with
      | .error err =>
        (target, some (.numberFailure fieldName nv fieldValue.type (some err)))
      | .ok n =>
        if overflowUint fieldValue.kind.bits n then
          (target, some (.numberFailure fieldName nv fieldValue.type none))
        else
          -- `SetUint(n)` converts to the field's width
          (target.setAt fieldValue.loc (.uint (n % 2 ^ fieldValue.kind.bits)),
            none)
    | .float32 | .float64 =>
      match rt.parseFloat nv fieldValue.kind.bits with
      | .error err =>
        (target, some (.floatFailure fieldName fieldValue fieldValue.type
          (some err)))
      | .ok n =>
        if overflowFloat fieldValue.kind.bits n then
          (target, some (.floatFailure fieldName fieldValue fieldValue.type
            none))
        else
          -- `SetFloat(n)` stores `float32(n)` in a `float32` field
          (target.setAt fieldValue.loc
            (.float (if fieldValue.kind = .float32 then rt.toFloat32 n else n)),
            none)
    | _ =>
      (target, some (.unsupportedKind fieldName fieldValue
        fieldValue.kind.toKind))
  else
    if rvType ≠ some fieldValue.type then
      (target, some (.typeMismatch fieldName rvType fieldValue.type))
    else
      -- `fieldValue.Set(reflect.ValueOf(rightValue))`; a nil value has no type
      -- and was turned down by the comparison above
      match rightValue with
      | .nil => (target, none)
      | .val _ data => (target.setAt fieldValue.loc data, none)

/-! ## Patcher -/

/-- What a call of `PatchIt` ends with: `nil`, an error, or a panic. -/
inductive Outcome
  | success
  | failure (e : PatchError)
  | panics
  deriving DecidableEq, Repr

/-- The method `PatchIt`, on the entries of the patch in the order in which
`range patch` yields them; it returns the record as the call leaves it and the
outcome. -/
def PatchIt (rt : Runtime) : GoValue → Patch → GoValue × Outcome
  | target, [] => (target, .success)
  | target, (path, value) :: rest =>
    match locateField rt target path with
    | .panics => (target, .panics)
    | .err e => (target, .failure e)
    | .ok fieldName fieldValue =>
      match setValue rt target fieldName fieldValue value with
      | (target', some e) => (target', .failure e)
      | (target', none) => PatchIt rt target' rest

/-! ## Notions used to state the properties -/

/-- Whether one entry goes through on a record: its path is located, the
field is settable, and `setValue` returns no error. -/
def entryApplies (rt : Runtime) (t : GoValue) (e : Path × RightValue) : Bool :=
  match locateField rt t e.1 with
  | .ok fieldName fieldValue => (setValue rt t fieldName fieldValue e.2).2.isNone
  | _ => false

/-- The position an entry's path resolves to on a record, when it resolves to
a settable field. -/
def entryLoc (rt : Runtime) (t : GoValue) (e : Path × RightValue) :
    Option (List Nat) :=
  match locateField rt t e.1 with
  | .ok _ fieldValue => some fieldValue.loc
  | _ => none

/-- Two records on which every walk gives the same result: they differ at
most in the data of their terminal values. -/
def SameShape (t t' : GoValue) : Prop :=
  ∀ fn loc fl toks path,
    patchRecursive fn loc fl t toks path = patchRecursive fn loc fl t' toks path

/-- The signed integer kinds. -/
def LeafKind.isSigned : LeafKind → Bool
  | .int | .int8 | .int16 | .int32 | .int64 => true
  | _ => false

/-- The unsigned integer kinds. -/
def LeafKind.isUnsigned : LeafKind → Bool
  | .uint | .uint8 | .uint16 | .uint32 | .uint64 | .uintptr => true
  | _ => false

/-- The floating-point kinds. -/
def LeafKind.isFloat : LeafKind → Bool
  | .float32 | .float64 => true
  | _ => false

/-- Coercion as section 4.3 of the specification words it, to be compared
with `setValue`: a numeric literal is parsed according to the kind of the
field and must lie in the range of the field's width; a concrete value must
have the field's type and is taken as it is.  The result is the datum the
field is to hold, `none` when the value is not compatible with the field. -/
def specCoerce (rt : Runtime) (h : Handle) : RightValue → Option Payload
  | .nil => none
  | .val ty data =>
    if ty = NumberType then
      if h.kind.isSigned then
        match parseInt data.text with
        | .ok n =>
          if -(2 : Int) ^ (h.kind.bits - 1) ≤ n ∧ n ≤ 2 ^ (h.kind.bits - 1) - 1
          then some (.int n) else none
        | .error _ => none
      else if h.kind.isUnsigned then
        match parseUint data.text with
        | .ok n => if n ≤ 2 ^ h.kind.bits - 1 then some (.uint n) else none
        | .error _ => none
      else if h.kind.isFloat then
        match rt.parseFloat data.text h.kind.bits with
        | .ok x =>
          if overflowFloat h.kind.bits x then none
          else some (.float (if h.kind = .float32 then rt.toFloat32 x else x))
        | .error _ => none
      else none
    else if ty = h.type then some data else none

/-- The names of the declared fields of a struct. -/
def Fields.names : Fields → List String
  | .nil => []
  | .cons name _ _ _ rest => name :: rest.names

/-- The value of the first declared field with a given name. -/
def Fields.lookup : Fields → String → Option GoValue
  | .nil, _ => none
  | .cons name _ _ value rest, tok =>
    if name = tok then some value else rest.lookup tok

/-- The value `w` is `v` itself or is reached from `v` through pointers and
interfaces only. -/
inductive Derefs : GoValue → GoValue → Prop
  | here (v : GoValue) : Derefs v v
  | ptr {e w : GoValue} : Derefs e w → Derefs (.ptr e) w
  | iface {e w : GoValue} : Derefs e w → Derefs (.iface e) w

/-- The walk along `tokens` from `v` reaches `w`: through pointers and
interfaces without reading a token, and from a struct into the first field
named by the next token. -/
inductive Reaches : GoValue → List String → GoValue → Prop
  | here (v : GoValue) (toks : List String) : Reaches v toks v
  | ptr {e w : GoValue} {toks : List String} :
      Reaches e toks w → Reaches (.ptr e) toks w
  | iface {e w : GoValue} {toks : List String} :
      Reaches e toks w → Reaches (.iface e) toks w
  | field {fs : Fields} {tok : String} {toks : List String} {value w : GoValue} :
      fs.lookup tok = some value → Reaches value toks w →
      Reaches (.struct fs) (tok :: toks) w

/-- The causes of failure in section 7 of the specification. -/
inductive Cause
  | PathNotResolved
  | FieldNotWritable
  | TypeMismatch
  | NumericConversionFailure
  deriving DecidableEq, Repr

/-- The cause of an error, after section 7 of the specification: a number for
a field that is not numeric counts as a numeric conversion failure. -/
def PatchError.cause : PatchError → Cause
  | .pathNotResolved _ => .PathNotResolved
  | .fieldNotWritable _ _ => .FieldNotWritable
  | .numberFailure _ _ _ _ => .NumericConversionFailure
  | .floatFailure _ _ _ _ => .NumericConversionFailure
  | .unsupportedKind _ _ _ => .NumericConversionFailure
  | .typeMismatch _ _ _ => .TypeMismatch

/-- How a call ended, the text of the error left out: `none` for a panic,
`some none` for success, `some (some c)` for a failure of cause `c`. -/
def Outcome.cause : Outcome → Option (Option Cause)
  | .success => some none
  | .failure e => some (some e.cause)
  | .panics => none

/-- Two segments that differ at most in the case of their first character:
they are equal, or they have the same characters after the first and the first
character of one is the upper case of the first character of the other. -/
def SegVariant (rt : Runtime) (s t : String) : Prop :=
  s = t ∨ ∃ c c' r, s = String.mk (c :: r) ∧ t = String.mk (c' :: r) ∧
    (c' = rt.toUpper c ∨ c = rt.toUpper c')

/-! ## Records and values of the examples -/

/-- A runtime for the examples, whose paths are ASCII and whose fields are
not floating-point: `unicode.ToUpper` on ASCII, no text accepted as a
floating-point number. -/
def asciiRuntime : Runtime :=
  ⟨Char.toUpper, fun _ _ => .error .ErrSyntax, id⟩

/-- A string value. -/
def strVal (s : String) : RightValue := .val ⟨.string, "string"⟩ (.str s)

/-- A `json.Number`. -/
def numVal (s : String) : RightValue := .val NumberType (.str s)

/-- An `int` value. -/
def intVal (n : Int) : RightValue := .val ⟨.int, "int"⟩ (.int n)

/-- The record `&struct{Name string; Age int32; Address struct{City string}}`
with the given data. -/
def personWith (name : String) (age : Int) (city : String) : GoValue :=
  .ptr (.struct
    (.cons "Name" true false (.leaf .string "string" (.str name))
    (.cons "Age" true false (.leaf .int32 "int32" (.int age))
    (.cons "Address" true false
      (.struct (.cons "City" true false (.leaf .string "string" (.str city))
        .nil))
    .nil))))

/-- The record of the examples before any patch. -/
def person : GoValue := personWith "" 0 ""

/-- The record `&struct{Tags []string; Team struct{Members [4]string}}`. -/
def roster : GoValue :=
  .ptr (.struct
    (.cons "Tags" true false (.seq true (.other 0))
    (.cons "Team" true false
      (.struct (.cons "Members" true false (.seq false (.other 0)) .nil))
    .nil)))

/-- The record `&struct{Level float64; Count MyInt; Octet uint8}`, where
`MyInt` is a named type `type MyInt int` of package `main`. -/
def gauge : GoValue :=
  .ptr (.struct
    (.cons "Level" true false (.leaf .float64 "float64" (.float 0))
    (.cons "Count" true false (.leaf .int "main.MyInt" (.int 0))
    (.cons "Octet" true false (.leaf .uint8 "uint8" (.uint 0))
    .nil))))

/-- The record `&struct{_secret string; Extra interface{}; Amount json.Number;
Active bool}`: `_secret` is not exported, `Extra` holds the `int` 5. -/
def vault : GoValue :=
  .ptr (.struct
    (.cons "_secret" false false (.leaf .string "string" (.str "s"))
    (.cons "Extra" true false (.iface (.leaf .int "int" (.int 5)))
    (.cons "Amount" true false (.leaf .string "json.Number" (.str "1"))
    (.cons "Active" true false (.leaf .bool "bool" (.bool true))
    .nil)))))

/-- The record of the examples handed over by value, `struct{...}` and not
`&struct{...}`. -/
def personByValue : GoValue :=
  .struct
    (.cons "Name" true false (.leaf .string "string" (.str ""))
    (.cons "Age" true false (.leaf .int32 "int32" (.int 0))
    (.cons "Address" true false
      (.struct (.cons "City" true false (.leaf .string "string" (.str ""))
        .nil))
    .nil)))

/-! ## Further notions used to state the properties -/

/-- The path handed to `fmt.Errorf` where an error is built: `string(path)`
on lines 59 and 62 of `locateField`; none on the lines of `setValue`, which
is not given the path. -/
def PatchError.path : PatchError → Option Path
  | .pathNotResolved path => some path
  | .fieldNotWritable path _ => some path
  | .numberFailure _ _ _ _ => none
  | .floatFailure _ _ _ _ => none
  | .unsupportedKind _ _ _ => none
  | .typeMismatch _ _ _ => none

/-- The field name handed to `fmt.Errorf` where an error is built: none on
line 59, `fieldName` on the other lines. -/
def PatchError.fieldName : PatchError → Option String
  | .pathNotResolved _ => none
  | .fieldNotWritable _ fieldName => some fieldName
  | .numberFailure fieldName _ _ _ => some fieldName
  | .floatFailure fieldName _ _ _ => some fieldName
  | .unsupportedKind fieldName _ _ => some fieldName
  | .typeMismatch fieldName _ _ => some fieldName

/-- The result of a walk with the position and the permission bits of the
handle left out: what is left is whether a field was found, its name, its
kind and its type. -/
def Walk.erase : Walk → Walk
  | .found h fieldName =>
    .found ⟨[], h.kind, h.tyName, ⟨false, false, false⟩⟩ fieldName
  | .notFound => .notFound
  | .panics => .panics

mutual
/-- The record with the data of every terminal value left out: its shape. -/
def GoValue.eraseData : GoValue → GoValue
  | .invalid => .invalid
  | .leaf kind tyName _ => .leaf kind tyName (.other 0)
  | .ptr elem => .ptr elem.eraseData
  | .iface elem => .iface elem.eraseData
  | .struct fields => .struct fields.eraseData
  | .seq slice data => .seq slice data
/-- The fields of a struct with the data of every terminal value left out. -/
def Fields.eraseData : Fields → Fields
  | .nil => .nil
  | .cons name exported embedded value rest =>
    .cons name exported embedded value.eraseData rest.eraseData
end

/-! ## The walk does not depend on the data of terminal values -/

mutual
/-- Assigning into a terminal value changes no result of `patchRecursive`. -/
theorem patchRecursive_setAt (v : GoValue) (l : List Nat) (d : Payload)
    (fn : String) (loc : List Nat) (fl : Flags) (toks : List String)
    (path : String) :
    patchRecursive fn loc fl (v.setAt l d) toks path
      = patchRecursive fn loc fl v toks path := by
  cases v with
  | invalid => cases l <;> simp [GoValue.setAt]
  | seq s x => cases l <;> simp [GoValue.setAt]
  | leaf k t x => cases l <;> simp [GoValue.setAt, patchRecursive]
  | ptr e =>
    cases l with
    | nil => simp [GoValue.setAt]
    | cons i l =>
      cases i with
      | zero =>
        simp only [GoValue.setAt, patchRecursive]
        exact patchRecursive_setAt e l d fn _ _ toks path
      | succ i => simp [GoValue.setAt]
  | iface e =>
    cases l with
    | nil => simp [GoValue.setAt]
    | cons i l =>
      cases i with
      | zero =>
        simp only [GoValue.setAt, patchRecursive]
        exact patchRecursive_setAt e l d fn _ _ toks path
      | succ i => simp [GoValue.setAt]
  | struct fs =>
    cases l with
    | nil => simp [GoValue.setAt]
    | cons i l =>
      simp only [GoValue.setAt, patchRecursive]
      exact scanFields_setAt fs i l d loc fl 0 toks path
/-- Assigning below a field changes no result of `scanFields`. -/
theorem scanFields_setAt (fs : Fields) (i : Nat) (l : List Nat) (d : Payload)
    (loc : List Nat) (fl : Flags) (j : Nat) (toks : List String)
    (path : String) :
    scanFields loc fl j (fs.setAt i l d) toks path
      = scanFields loc fl j fs toks path := by
  cases fs with
  | nil => simp [Fields.setAt]
  | cons n ex em v rest =>
    cases toks with
    | nil => cases i <;> simp [Fields.setAt, scanFields]
    | cons tok toks =>
      cases i with
      | zero =>
        simp only [Fields.setAt, scanFields]
        split
        · exact patchRecursive_setAt v l d n _ _ toks _
        · rfl
      | succ i =>
        simp only [Fields.setAt, scanFields]
        split
        · rfl
        · exact scanFields_setAt rest i l d loc fl (j + 1) (tok :: toks) path
end

/-! ## Handles point at terminal values -/

mutual
/-- A handle returned by `patchRecursive` is the position of a terminal value
of the handle's kind and type, below the position the walk started at. -/
theorem patchRecursive_found (v : GoValue) (fn : String) (loc : List Nat)
    (fl : Flags) (toks : List String) (path : String) (h : Handle)
    (name : String)
    (hw : patchRecursive fn loc fl v toks path = .found h name) :
    ∃ rel d, h.loc = loc ++ rel ∧
      v.getAt rel = some (.leaf h.kind h.tyName d) := by
  cases v with
  | invalid => simp [patchRecursive] at hw
  | seq s x => simp [patchRecursive] at hw
  | leaf k t x =>
    simp only [patchRecursive, Walk.found.injEq] at hw
    obtain ⟨rfl, -⟩ := hw
    exact ⟨[], x, by simp, by simp [GoValue.getAt]⟩
  | ptr e =>
    simp only [patchRecursive] at hw
    obtain ⟨rel, d, h1, h2⟩ := patchRecursive_found e fn _ _ toks path h name hw
    exact ⟨0 :: rel, d, by simpa using h1, by simpa [GoValue.getAt] using h2⟩
  | iface e =>
    simp only [patchRecursive] at hw
    obtain ⟨rel, d, h1, h2⟩ := patchRecursive_found e fn _ _ toks path h name hw
    exact ⟨0 :: rel, d, by simpa using h1, by simpa [GoValue.getAt] using h2⟩
  | struct fs =>
    simp only [patchRecursive] at hw
    obtain ⟨i, rel, d, h1, h2⟩ := scanFields_found fs loc fl 0 toks path h name hw
    exact ⟨i :: rel, d, by simpa using h1, by simpa [GoValue.getAt] using h2⟩
/-- A handle returned by `scanFields` lies below one of the scanned fields. -/
theorem scanFields_found (fs : Fields) (loc : List Nat) (fl : Flags) (j : Nat)
    (toks : List String) (path : String) (h : Handle) (name : String)
    (hw : scanFields loc fl j fs toks path = .found h name) :
    ∃ i rel d, h.loc = loc ++ (j + i) :: rel ∧
      fs.getAt i rel = some (.leaf h.kind h.tyName d) := by
  cases fs with
  | nil => simp [scanFields] at hw
  | cons n ex em v rest =>
    cases toks with
    | nil => simp [scanFields] at hw
    | cons tok toks =>
      simp only [scanFields] at hw
      split at hw
      · obtain ⟨rel, d, h1, h2⟩ := patchRecursive_found v n _ _ toks _ h name hw
        exact ⟨0, rel, d, by simpa using h1, by simpa [Fields.getAt] using h2⟩
      · obtain ⟨i, rel, d, h1, h2⟩ :=
          scanFields_found rest loc fl (j + 1) (tok :: toks) path h name hw
        refine ⟨i + 1, rel, d, ?_, by simpa [Fields.getAt] using h2⟩
        rw [h1]; congr 2; omega
end

/-! ## Reading after writing -/

mutual
/-- After an assignment the terminal value at the assigned position holds the
assigned data. -/
theorem GoValue.getAt_setAt_same (v : GoValue) (l : List Nat) (k : LeafKind)
    (t : String) (x d : Payload) (hg : v.getAt l = some (.leaf k t x)) :
    (v.setAt l d).getAt l = some (.leaf k t d) := by
  cases v with
  | invalid => cases l <;> simp [GoValue.getAt] at hg
  | seq s y => cases l <;> simp [GoValue.getAt] at hg
  | leaf k2 t2 y =>
    cases l with
    | nil =>
      simp only [GoValue.getAt, Option.some.injEq, GoValue.leaf.injEq] at hg
      obtain ⟨rfl, rfl, -⟩ := hg
      simp [GoValue.setAt, GoValue.getAt]
    | cons i l => simp [GoValue.getAt] at hg
  | ptr e =>
    cases l with
    | nil => simp [GoValue.getAt] at hg
    | cons i l =>
      cases i with
      | zero =>
        simp only [GoValue.getAt] at hg
        simpa [GoValue.setAt, GoValue.getAt] using
          GoValue.getAt_setAt_same e l k t x d hg
      | succ i => simp [GoValue.getAt] at hg
  | iface e =>
    cases l with
    | nil => simp [GoValue.getAt] at hg
    | cons i l =>
      cases i with
      | zero =>
        simp only [GoValue.getAt] at hg
        simpa [GoValue.setAt, GoValue.getAt] using
          GoValue.getAt_setAt_same e l k t x d hg
      | succ i => simp [GoValue.getAt] at hg
  | struct fs =>
    cases l with
    | nil => simp [GoValue.getAt] at hg
    | cons i l =>
      simp only [GoValue.getAt] at hg
      simpa [GoValue.setAt, GoValue.getAt] using
        Fields.getAt_setAt_same_below fs i l k t x d hg
/-- The same below a field of a struct. -/
theorem Fields.getAt_setAt_same_below (fs : Fields) (i : Nat) (l : List Nat)
    (k : LeafKind) (t : String) (x d : Payload)
    (hg : fs.getAt i l = some (.leaf k t x)) :
    (fs.setAt i l d).getAt i l = some (.leaf k t d) := by
  cases fs with
  | nil => simp [Fields.getAt] at hg
  | cons n ex em v rest =>
    cases i with
    | zero =>
      simp only [Fields.getAt] at hg
      simpa [Fields.setAt, Fields.getAt] using
        GoValue.getAt_setAt_same v l k t x d hg
    | succ i =>
      simp only [Fields.getAt] at hg
      simpa [Fields.setAt, Fields.getAt] using
        Fields.getAt_setAt_same_below rest i l k t x d hg
end

mutual
/-- An assignment leaves every other terminal value as it was. -/
theorem GoValue.getAt_setAt_other (v : GoValue) (l l' : List Nat)
    (k : LeafKind) (t : String) (x d : Payload)
    (hg : v.getAt l' = some (.leaf k t x)) (hne : l ≠ l') :
    (v.setAt l d).getAt l' = some (.leaf k t x) := by
  cases v with
  | invalid => cases l' <;> simp [GoValue.getAt] at hg
  | seq s y => cases l' <;> simp [GoValue.getAt] at hg
  | leaf k2 t2 y =>
    cases l' with
    | nil =>
      cases l with
      | nil => exact absurd rfl hne
      | cons i l => simpa [GoValue.setAt] using hg
    | cons i l' => simp [GoValue.getAt] at hg
  | ptr e =>
    cases l' with
    | nil => simp [GoValue.getAt] at hg
    | cons i' l' =>
      cases i' with
      | succ i' => simp [GoValue.getAt] at hg
      | zero =>
        cases l with
        | nil => simpa [GoValue.setAt] using hg
        | cons i l =>
          cases i with
          | succ i => simpa [GoValue.setAt] using hg
          | zero =>
            simp only [GoValue.getAt] at hg
            simpa [GoValue.setAt, GoValue.getAt] using
              GoValue.getAt_setAt_other e l l' k t x d hg (by simpa using hne)
  | iface e =>
    cases l' with
    | nil => simp [GoValue.getAt] at hg
    | cons i' l' =>
      cases i' with
      | succ i' => simp [GoValue.getAt] at hg
      | zero =>
        cases l with
        | nil => simpa [GoValue.setAt] using hg
        | cons i l =>
          cases i with
          | succ i => simpa [GoValue.setAt] using hg
          | zero =>
            simp only [GoValue.getAt] at hg
            simpa [GoValue.setAt, GoValue.getAt] using
              GoValue.getAt_setAt_other e l l' k t x d hg (by simpa using hne)
  | struct fs =>
    cases l' with
    | nil => simp [GoValue.getAt] at hg
    | cons i' l' =>
      cases l with
      | nil => simpa [GoValue.setAt] using hg
      | cons i l =>
        simp only [GoValue.getAt] at hg
        simpa [GoValue.setAt, GoValue.getAt] using
          Fields.getAt_setAt_other_below fs i i' l l' k t x d hg
            (by
              by_cases hi : i = i'
              · right; intro hl; exact hne (by rw [hi, hl])
              · left; exact hi)
/-- The same below the fields of a struct. -/
theorem Fields.getAt_setAt_other_below (fs : Fields) (i i' : Nat) (l l' : List Nat)
    (k : LeafKind) (t : String) (x d : Payload)
    (hg : fs.getAt i' l' = some (.leaf k t x)) (hne : i ≠ i' ∨ l ≠ l') :
    (fs.setAt i l d).getAt i' l' = some (.leaf k t x) := by
  cases fs with
  | nil => simp [Fields.getAt] at hg
  | cons n ex em v rest =>
    cases i' with
    | zero =>
      cases i with
      | zero =>
        simp only [Fields.getAt] at hg
        simpa [Fields.setAt, Fields.getAt] using
          GoValue.getAt_setAt_other v l l' k t x d hg (by simpa using hne)
      | succ i => simpa [Fields.setAt, Fields.getAt] using hg
    | succ i' =>
      cases i with
      | zero => simpa [Fields.setAt, Fields.getAt] using hg
      | succ i =>
        simp only [Fields.getAt] at hg
        simpa [Fields.setAt, Fields.getAt] using
          Fields.getAt_setAt_other_below rest i i' l l' k t x d hg (by simpa using hne)
end

mutual
/-- Assignments at two different positions commute. -/
theorem GoValue.setAt_comm (v : GoValue) (l₁ l₂ : List Nat) (d₁ d₂ : Payload)
    (hne : l₁ ≠ l₂) :
    (v.setAt l₁ d₁).setAt l₂ d₂ = (v.setAt l₂ d₂).setAt l₁ d₁ := by
  cases v with
  | invalid => cases l₁ <;> cases l₂ <;> simp [GoValue.setAt]
  | seq s y => cases l₁ <;> cases l₂ <;> simp [GoValue.setAt]
  | leaf k t y =>
    cases l₁ <;> cases l₂ <;> simp [GoValue.setAt] at hne ⊢
  | ptr e =>
    cases l₁ with
    | nil => cases l₂ with
      | nil => exact absurd rfl hne
      | cons i₂ l₂ => cases i₂ <;> simp [GoValue.setAt]
    | cons i₁ l₁ =>
      cases l₂ with
      | nil => cases i₁ <;> simp [GoValue.setAt]
      | cons i₂ l₂ =>
        cases i₁ <;> cases i₂ <;> simp only [GoValue.setAt]
        exact congrArg GoValue.ptr
          (GoValue.setAt_comm e l₁ l₂ d₁ d₂ (by simpa using hne))
  | iface e =>
    cases l₁ with
    | nil => cases l₂ with
      | nil => exact absurd rfl hne
      | cons i₂ l₂ => cases i₂ <;> simp [GoValue.setAt]
    | cons i₁ l₁ =>
      cases l₂ with
      | nil => cases i₁ <;> simp [GoValue.setAt]
      | cons i₂ l₂ =>
        cases i₁ <;> cases i₂ <;> simp only [GoValue.setAt]
        exact congrArg GoValue.iface
          (GoValue.setAt_comm e l₁ l₂ d₁ d₂ (by simpa using hne))
  | struct fs =>
    cases l₁ with
    | nil => cases l₂ with
      | nil => exact absurd rfl hne
      | cons i₂ l₂ => simp [GoValue.setAt]
    | cons i₁ l₁ =>
      cases l₂ with
      | nil => simp [GoValue.setAt]
      | cons i₂ l₂ =>
        simp only [GoValue.setAt]
        exact congrArg GoValue.struct
          (Fields.setAt_comm_below fs i₁ i₂ l₁ l₂ d₁ d₂
            (by
              by_cases hi : i₁ = i₂
              · right; intro hl; exact hne (by rw [hi, hl])
              · left; exact hi))
/-- The same below the fields of a struct. -/
theorem Fields.setAt_comm_below (fs : Fields) (i₁ i₂ : Nat) (l₁ l₂ : List Nat)
    (d₁ d₂ : Payload) (hne : i₁ ≠ i₂ ∨ l₁ ≠ l₂) :
    (fs.setAt i₁ l₁ d₁).setAt i₂ l₂ d₂ = (fs.setAt i₂ l₂ d₂).setAt i₁ l₁ d₁ := by
  cases fs with
  | nil => simp [Fields.setAt]
  | cons n ex em v rest =>
    cases i₁ with
    | zero =>
      cases i₂ with
      | zero =>
        simp only [Fields.setAt]
        rw [GoValue.setAt_comm v l₁ l₂ d₁ d₂ (by simpa using hne)]
      | succ i₂ => simp [Fields.setAt]
    | succ i₁ =>
      cases i₂ with
      | zero => simp [Fields.setAt]
      | succ i₂ =>
        simp only [Fields.setAt]
        rw [Fields.setAt_comm_below rest i₁ i₂ l₁ l₂ d₁ d₂ (by simpa using hne)]
end

/-! ## `setValue` and `PatchIt` as state transformers -/

/-- Whether `setValue` fails, with which error, and which data it assigns
depend on the handle and the value only, not on the record: either it returns
one error on every record and leaves the record, or it assigns one datum at
the handle's position on every record. -/
theorem setValue_cases (rt : Runtime) (name : String) (h : Handle)
    (v : RightValue) :
    (∃ e, ∀ t, setValue rt t name h v = (t, some e)) ∨
    (∃ d, ∀ t, setValue rt t name h v = (t.setAt h.loc d, none)) := by
  rcases h with ⟨loc, kind, ty, fl⟩
  by_cases h1 : v.typeOf = some NumberType
  · cases kind <;> simp only [setValue, h1, if_true] <;> (repeat' split) <;>
      first
      | exact Or.inl ⟨_, fun _ => rfl⟩
      | exact Or.inr ⟨_, fun _ => rfl⟩
  · by_cases h2 : v.typeOf = some (Handle.type ⟨loc, kind, ty, fl⟩)
    · cases v with
      | nil => simp [RightValue.typeOf] at h2
      | val ty d =>
        refine Or.inr ⟨d, fun t => ?_⟩
        unfold setValue
        simp only []
        rw [if_neg h1, if_neg (not_not.mpr h2)]
    · refine Or.inl ⟨.typeMismatch name v.typeOf
        (Handle.type ⟨loc, kind, ty, fl⟩), fun t => ?_⟩
      unfold setValue
      simp only []
      rw [if_neg h1, if_pos h2]

/-- An error of `setValue` leaves the record as it was. -/
theorem setValue_error_unchanged (rt : Runtime) (t : GoValue) (name : String)
    (h : Handle) (v : RightValue) (hne : (setValue rt t name h v).2 ≠ none) :
    (setValue rt t name h v).1 = t := by
  rcases setValue_cases rt name h v with ⟨e, he⟩ | ⟨d, hd⟩
  · rw [he]
  · rw [hd] at hne; exact absurd rfl hne

theorem SameShape.refl (t : GoValue) : SameShape t t := fun _ _ _ _ _ => rfl

theorem SameShape.trans {a b c : GoValue} (h₁ : SameShape a b)
    (h₂ : SameShape b c) : SameShape a c :=
  fun fn loc fl toks path => (h₁ fn loc fl toks path).trans (h₂ fn loc fl toks path)

theorem SameShape.symm {a b : GoValue} (h : SameShape a b) : SameShape b a :=
  fun fn loc fl toks path => (h fn loc fl toks path).symm

theorem SameShape.setAt (t : GoValue) (l : List Nat) (d : Payload) :
    SameShape (t.setAt l d) t :=
  fun fn loc fl toks path => patchRecursive_setAt t l d fn loc fl toks path

/-- Records of the same shape locate every path alike. -/
theorem locateField_congr (rt : Runtime) {t t' : GoValue} (hs : SameShape t t')
    (p : Path) : locateField rt t p = locateField rt t' p := by
  unfold locateField
  rw [hs]

/-- The record `setValue` returns has the shape of the record it was given. -/
theorem setValue_shape (rt : Runtime) (t : GoValue) (name : String)
    (h : Handle) (v : RightValue) : SameShape (setValue rt t name h v).1 t := by
  rcases setValue_cases rt name h v with ⟨e, he⟩ | ⟨d, hd⟩
  · rw [he]; exact SameShape.refl t
  · rw [hd]; exact SameShape.setAt t h.loc d

/-- Whether `setValue` returns an error does not depend on the record. -/
theorem setValue_error_congr (rt : Runtime) (t t' : GoValue) (name : String)
    (h : Handle) (v : RightValue) :
    (setValue rt t name h v).2 = (setValue rt t' name h v).2 := by
  rcases setValue_cases rt name h v with ⟨e, he⟩ | ⟨d, hd⟩
  · rw [he, he]
  · rw [hd, hd]

/-- The record `PatchIt` leaves has the shape of the record it was given. -/
theorem PatchIt_shape (rt : Runtime) (es : List (Path × RightValue)) :
    ∀ t, SameShape (PatchIt rt t es).1 t := by
  induction es with
  | nil => intro t; exact SameShape.refl t
  | cons e rest ih =>
    intro t
    obtain ⟨p, v⟩ := e
    unfold PatchIt
    cases hl : locateField rt t p with
    | panics => exact SameShape.refl t
    | err e => exact SameShape.refl t
    | ok name h =>
      simp only []
      rcases setValue_cases rt name h v with ⟨e, he⟩ | ⟨d, hd⟩
      · rw [he]; exact SameShape.refl t
      · rw [hd]; exact (ih _).trans (SameShape.setAt t h.loc d)

/-- Whether an entry goes through is the same on records of the same shape. -/
theorem entryApplies_congr (rt : Runtime) {t t' : GoValue}
    (hs : SameShape t t') (e : Path × RightValue) :
    entryApplies rt t e = entryApplies rt t' e := by
  unfold entryApplies
  rw [locateField_congr rt hs]
  cases locateField rt t' e.1 with
  | ok name h => simp only [setValue_error_congr rt t t' name h e.2]
  | err e => rfl
  | panics => rfl

/-- An entry that goes through is an assignment at the position it
addresses. -/
theorem entryApplies_spec (rt : Runtime) (t : GoValue) (e : Path × RightValue)
    (ha : entryApplies rt t e = true) :
    ∃ name h d, locateField rt t e.1 = .ok name h ∧
      (∀ t', setValue rt t' name h e.2 = (t'.setAt h.loc d, none)) ∧
      ∀ rest, PatchIt rt t (e :: rest) = PatchIt rt (t.setAt h.loc d) rest := by
  obtain ⟨p, v⟩ := e
  unfold entryApplies at ha
  cases hl : locateField rt t p with
  | panics => simp [hl] at ha
  | err e => simp [hl] at ha
  | ok name h =>
    simp only [hl] at ha
    rcases setValue_cases rt name h v with ⟨e, he⟩ | ⟨d, hd⟩
    · simp [he] at ha
    · refine ⟨name, h, d, rfl, hd, fun rest => ?_⟩
      rw [PatchIt, hl]
      simp only [hd]

/-- An entry that does not go through ends the call, the record left as it
was, whatever entries follow. -/
theorem entryApplies_false (rt : Runtime) (t : GoValue) (e : Path × RightValue)
    (ha : entryApplies rt t e = false) :
    ∃ o, o ≠ .success ∧ ∀ rest, PatchIt rt t (e :: rest) = (t, o) := by
  obtain ⟨p, v⟩ := e
  unfold entryApplies at ha
  cases hl : locateField rt t p with
  | panics => exact ⟨.panics, by simp, fun rest => by rw [PatchIt, hl]⟩
  | err e => exact ⟨.failure e, by simp, fun rest => by rw [PatchIt, hl]⟩
  | ok name h =>
    simp only [hl] at ha
    rcases setValue_cases rt name h v with ⟨e, he⟩ | ⟨d, hd⟩
    · refine ⟨.failure e, by simp, fun rest => ?_⟩
      rw [PatchIt, hl]
      simp only [he]
    · simp [hd] at ha

/-- The outcome of a single entry is the same on records of the same shape. -/
theorem PatchIt_single_outcome_congr (rt : Runtime) {t t' : GoValue}
    (hs : SameShape t t') (e : Path × RightValue) :
    (PatchIt rt t [e]).2 = (PatchIt rt t' [e]).2 := by
  obtain ⟨p, v⟩ := e
  simp only [PatchIt]
  rw [locateField_congr rt hs]
  cases locateField rt t' p with
  | panics => rfl
  | err e => rfl
  | ok name h =>
    simp only []
    rcases setValue_cases rt name h v with ⟨e, he⟩ | ⟨d, hd⟩
    · rw [he, he]
    · rw [hd, hd]

/-- Entries that all go through are applied one after the other, and the
call goes on with the entries that follow. -/
theorem PatchIt_append_of_applies (rt : Runtime)
    (pre rest : List (Path × RightValue)) :
    ∀ t, (∀ x ∈ pre, entryApplies rt t x = true) →
      (PatchIt rt t pre).2 = .success ∧
      PatchIt rt t (pre ++ rest) = PatchIt rt (PatchIt rt t pre).1 rest := by
  induction pre with
  | nil => intro t _; exact ⟨rfl, rfl⟩
  | cons e pre ih =>
    intro t hall
    obtain ⟨name, h, d, -, -, hstep⟩ :=
      entryApplies_spec rt t e (hall e (List.mem_cons_self _ _))
    have hall' : ∀ x ∈ pre, entryApplies rt (t.setAt h.loc d) x = true := by
      intro x hx
      rw [entryApplies_congr rt (SameShape.setAt t h.loc d)]
      exact hall x (List.mem_cons_of_mem _ hx)
    obtain ⟨h1, h2⟩ := ih (t.setAt h.loc d) hall'
    rw [List.cons_append, hstep, hstep]
    exact ⟨h1, h2⟩

/-- Claim C3. Each entry is atomic: when `PatchIt` on a single entry fails,
whatever the cause (path not resolved, field not writable, type mismatch,
number unparsable or out of range, kind not supported, or a panic), the
record is exactly the record given to the call. -/
theorem entry_atomic (rt : Runtime) (t : GoValue) (p : Path) (v : RightValue)
    (hf : (PatchIt rt t [(p, v)]).2 ≠ .success) :
    (PatchIt rt t [(p, v)]).1 = t := by
  cases ha : entryApplies rt t (p, v) with
  | true =>
    obtain ⟨name, h, d, -, -, hstep⟩ := entryApplies_spec rt t (p, v) ha
    rw [hstep] at hf
    exact absurd rfl hf
  | false =>
    obtain ⟨o, -, ho⟩ := entryApplies_false rt t (p, v) ha
    rw [ho]

/-- The example of C3: on `{Name string, Age int32, Address {City string}}`
the patch `{"age": "99999999999999"}` fails with a numeric conversion failure
and the record is untouched. -/
theorem entry_atomic_witness :
    (PatchIt asciiRuntime person [("age", numVal "99999999999999")]).2
        = .failure (.numberFailure "Age" "99999999999999" ⟨.int32, "int32"⟩ none) ∧
      (PatchIt asciiRuntime person [("age", numVal "99999999999999")]).1
        = person :=
  ⟨by decide, entry_atomic asciiRuntime person "age" (numVal "99999999999999")
    (by decide)⟩

/-- Claim C2. `PatchIt` is fail-fast without rollback.  It ends with success
exactly when every entry is located, settable and coerced without error; and
when the entries before `e` all go through and `e` does not, the call ends
with the outcome of `e`, the record is the one left by the entries before `e`
applied in order, and the entries after `e` play no part. -/
theorem PatchIt_fail_fast (rt : Runtime) (root : GoValue)
    (es : List (Path × RightValue)) :
    ((PatchIt rt root es).2 = .success ↔
        ∀ e ∈ es, entryApplies rt root e = true) ∧
    ∀ pre e post, es = pre ++ e :: post →
      (∀ x ∈ pre, entryApplies rt root x = true) →
      entryApplies rt root e = false →
      (PatchIt rt root pre).2 = .success ∧
      (PatchIt rt root [e]).2 ≠ .success ∧
      PatchIt rt root es = ((PatchIt rt root pre).1, (PatchIt rt root [e]).2) ∧
      PatchIt rt root (pre ++ [e]) = PatchIt rt root es := by
  have key : ∀ pre e post, (∀ x ∈ pre, entryApplies rt root x = true) →
      entryApplies rt root e = false →
      (PatchIt rt root pre).2 = .success ∧
      (PatchIt rt root [e]).2 ≠ .success ∧
      PatchIt rt root (pre ++ e :: post)
        = ((PatchIt rt root pre).1, (PatchIt rt root [e]).2) := by
    intro pre e post hpre he
    obtain ⟨h1, h2⟩ := PatchIt_append_of_applies rt pre (e :: post) root hpre
    have hs := PatchIt_shape rt pre root
    have he' : entryApplies rt (PatchIt rt root pre).1 e = false := by
      rw [entryApplies_congr rt hs]; exact he
    obtain ⟨o, hne, ho⟩ := entryApplies_false rt _ e he'
    have ho' : (PatchIt rt root [e]).2 = o := by
      rw [← PatchIt_single_outcome_congr rt hs e, ho]
    refine ⟨h1, ?_, ?_⟩
    · rw [ho']; exact hne
    · rw [h2, ho, ho']
  refine ⟨?_, ?_⟩
  · constructor
    · intro hsucc e he
      by_contra hcon
      obtain ⟨pre, post, rfl⟩ : ∃ pre post, es = pre ++ e :: post :=
        List.append_of_mem he
      -- take the first entry that does not go through
      have : ∀ (l : List (Path × RightValue)) (r : List (Path × RightValue)),
          (∃ x ∈ l, entryApplies rt root x ≠ true) →
          (PatchIt rt root (l ++ r)).2 ≠ .success := by
        intro l
        induction l using List.reverseRecOn with
        | nil => intro r ⟨x, hx, _⟩; simp at hx
        | append_singleton l a ih =>
          intro r ⟨x, hx, hxa⟩
          by_cases hl : ∃ y ∈ l, entryApplies rt root y ≠ true
          · rw [List.append_assoc]; exact ih _ hl
          · have hall : ∀ y ∈ l, entryApplies rt root y = true := by
              intro y hy
              by_contra hy'
              exact hl ⟨y, hy, hy'⟩
            have hxa' : entryApplies rt root a = false := by
              rcases List.mem_append.mp hx with hx | hx
              · exact absurd (hall x hx) hxa
              · rw [List.mem_singleton] at hx
                subst hx
                simpa using hxa
            obtain ⟨-, k2, k3⟩ := key l a r hall hxa'
            rw [List.append_assoc, List.singleton_append, k3]
            exact k2
      exact this (pre ++ [e]) post ⟨e, by simp, hcon⟩
        (by simpa using hsucc)
    · intro hall
      have := (PatchIt_append_of_applies rt es [] root hall).1
      exact this
  · intro pre e post hes hpre he
    subst hes
    obtain ⟨k1, k2, k3⟩ := key pre e post hpre he
    obtain ⟨-, -, k4⟩ := key pre e [] hpre he
    exact ⟨k1, k2, k3, by rw [k4, k3]⟩

/-- An instance of C2: the second of three entries overflows; the first is
applied and stays applied, the third is not applied. -/
theorem PatchIt_fail_fast_witness :
    PatchIt asciiRuntime person
        [("name", strVal "Alice"), ("age", numVal "99999999999999"),
          ("address.city", strVal "Boston")]
      = (personWith "Alice" 0 "",
          .failure (.numberFailure "Age" "99999999999999" ⟨.int32, "int32"⟩
            none)) := by
  have h := (PatchIt_fail_fast asciiRuntime person
    [("name", strVal "Alice"), ("age", numVal "99999999999999"),
      ("address.city", strVal "Boston")]).2
    [("name", strVal "Alice")] ("age", numVal "99999999999999")
    [("address.city", strVal "Boston")] rfl (by decide) (by decide)
  rw [h.2.2.1]
  decide

/-! ## Decimal text -/

/-- The value a decimal digit adds to the number read so far. -/
theorem digitChar_spec : ∀ d, d < 10 →
    '0' ≤ Nat.digitChar d ∧ Nat.digitChar d ≤ '9' ∧
      (Nat.digitChar d).toNat - '0'.toNat = d := by
  decide

theorem digit_bounds (c : Char) (h : '0' ≤ c ∧ c ≤ '9') :
    c.toNat - '0'.toNat ≤ 9 := by
  have h1 : c.toNat ≤ 57 := h.2
  have h2 : '0'.toNat = 48 := rfl
  omega

theorem readDigits_ge (ds : List Char) :
    ∀ a, a ≤ ds.foldl (fun a c => a * 10 + (c.toNat - '0'.toNat)) a := by
  induction ds with
  | nil => intro a; exact Nat.le_refl a
  | cons c cs ih =>
    intro a
    simp only [List.foldl_cons]
    exact le_trans (by omega) (ih _)

/-- On a text of decimal digits the loop of `ParseUint` returns the number
the digits denote when it is below `2^64`, and a range error otherwise. -/
theorem parseUintLoop_digits (ds : List Char)
    (hd : ∀ c ∈ ds, '0' ≤ c ∧ c ≤ '9') :
    ∀ a, a < 2 ^ 64 →
      parseUintLoop ds a =
        if ds.foldl (fun a c => a * 10 + (c.toNat - '0'.toNat)) a < 2 ^ 64
        then .ok (ds.foldl (fun a c => a * 10 + (c.toNat - '0'.toNat)) a)
        else .error .ErrRange := by
  induction ds with
  | nil => intro a ha; simp only [parseUintLoop, List.foldl_nil, if_pos ha]
  | cons c cs ih =>
    intro a ha
    have hc := hd c (List.mem_cons_self _ _)
    have hd9 := digit_bounds c hc
    have hmono := readDigits_ge cs (a * 10 + (c.toNat - '0'.toNat))
    simp only [parseUintLoop, hc, and_self, if_true, List.foldl_cons]
    by_cases h1 : a ≥ (2 ^ 64 - 1) / 10 + 1
    · rw [if_pos h1, if_neg]
      have : (2 ^ 64 - 1) / 10 + 1 = 1844674407370955162 := by norm_num
      have h64 : (2:ℕ) ^ 64 = 18446744073709551616 := by norm_num
      omega
    · rw [if_neg h1]
      have hc' : (2 ^ 64 - 1) / 10 + 1 = 1844674407370955162 := by norm_num
      have h64 : (2:ℕ) ^ 64 = 18446744073709551616 := by norm_num
      by_cases h2 : a * 10 + (c.toNat - '0'.toNat) < 2 ^ 64
      · have hmod : (a * 10 + (c.toNat - '0'.toNat)) % 2 ^ 64
            = a * 10 + (c.toNat - '0'.toNat) := Nat.mod_eq_of_lt h2
        rw [hmod, if_neg (by omega)]
        exact ih (fun x hx => hd x (List.mem_cons_of_mem _ hx)) _ h2
      · have hlt : (a * 10 + (c.toNat - '0'.toNat)) % 2 ^ 64 < a * 10 := by
          have : (a * 10 + (c.toNat - '0'.toNat)) % 2 ^ 64
              = a * 10 + (c.toNat - '0'.toNat) - 2 ^ 64 := by
            rw [Nat.mod_eq_sub_mod (by omega), Nat.mod_eq_of_lt (by omega)]
          omega
        rw [if_pos (Or.inl hlt), if_neg (by omega)]

theorem toDigitsCore_digits (fuel : Nat) :
    ∀ n ds, (∀ c ∈ ds, '0' ≤ c ∧ c ≤ '9') →
      ∀ c ∈ Nat.toDigitsCore 10 fuel n ds, '0' ≤ c ∧ c ≤ '9' := by
  induction fuel with
  | zero => intro n ds hds; simpa [Nat.toDigitsCore] using hds
  | succ fuel ih =>
    intro n ds hds
    have hdc := digitChar_spec (n % 10) (Nat.mod_lt _ (by norm_num))
    have hds' : ∀ c ∈ Nat.digitChar (n % 10) :: ds, '0' ≤ c ∧ c ≤ '9' := by
      intro c hc
      rcases List.mem_cons.mp hc with rfl | hc
      · exact ⟨hdc.1, hdc.2.1⟩
      · exact hds c hc
    simp only [Nat.toDigitsCore]
    split
    · exact hds'
    · exact ih _ _ hds'

theorem toDigitsCore_value (fuel : Nat) :
    ∀ n ds, n < fuel →
      (Nat.toDigitsCore 10 fuel n ds).foldl
          (fun a c => a * 10 + (c.toNat - '0'.toNat)) 0
        = ds.foldl (fun a c => a * 10 + (c.toNat - '0'.toNat)) n := by
  induction fuel with
  | zero => intro n ds h; omega
  | succ fuel ih =>
    intro n ds hn
    have hdc := (digitChar_spec (n % 10) (Nat.mod_lt _ (by norm_num))).2.2
    simp only [Nat.toDigitsCore]
    split
    · rename_i h0
      simp only [List.foldl_cons, hdc]
      congr 1; omega
    · rename_i h0
      rw [ih _ _ (by omega)]
      simp only [List.foldl_cons, hdc]
      congr 1; omega

theorem toDigitsCore_ne_nil (fuel : Nat) :
    ∀ n ds, (fuel ≠ 0 ∨ ds ≠ []) → Nat.toDigitsCore 10 fuel n ds ≠ [] := by
  induction fuel with
  | zero => intro n ds h; simpa [Nat.toDigitsCore] using h
  | succ fuel ih =>
    intro n ds _
    simp only [Nat.toDigitsCore]
    split
    · simp
    · exact ih _ _ (Or.inr (by simp))

theorem toDigits_ne_nil (n : Nat) : Nat.toDigits 10 n ≠ [] :=
  toDigitsCore_ne_nil _ _ _ (Or.inl (by omega))

theorem repr_data (n : Nat) : (Nat.repr n).data = Nat.toDigits 10 n := rfl

/-- The call `ParseUint` on the decimal text of a natural number. -/
theorem parseUint_repr (n : Nat) :
    parseUint (Nat.repr n) = if n < 2 ^ 64 then .ok n else .error .ErrRange := by
  unfold parseUint
  rw [repr_data]
  unfold Nat.toDigits
  rw [if_neg (toDigitsCore_ne_nil _ _ _ (Or.inl (by omega)))]
  rw [parseUintLoop_digits _ (toDigitsCore_digits _ _ _ (by simp)) 0 (by norm_num)]
  have := toDigitsCore_value (n + 1) n [] (by omega)
  simp only [List.foldl_nil] at this
  rw [this]

theorem int_repr_data_neg (m : Nat) :
    (Int.repr (Int.negSucc m)).data = '-' :: Nat.toDigits 10 (m + 1) := rfl

/-- The first character of the decimal text of a natural number is a digit. -/
theorem toDigits_cons (n : Nat) :
    ∃ c cs, Nat.toDigits 10 n = c :: cs ∧ '0' ≤ c ∧ c ≤ '9' := by
  have hne : Nat.toDigits 10 n ≠ [] :=
    toDigitsCore_ne_nil _ _ _ (Or.inl (by omega))
  have hd : ∀ c ∈ Nat.toDigits 10 n, '0' ≤ c ∧ c ≤ '9' :=
    toDigitsCore_digits _ _ _ (by simp)
  cases h : Nat.toDigits 10 n with
  | nil => exact absurd h hne
  | cons c cs => exact ⟨c, cs, rfl, hd c (by rw [h]; exact List.mem_cons_self _ _)⟩

theorem parseUintLoop_toDigits (n : Nat) :
    parseUintLoop (Nat.toDigits 10 n) 0
      = if n < 2 ^ 64 then .ok n else .error .ErrRange := by
  have := parseUint_repr n
  unfold parseUint at this
  rw [repr_data, if_neg (toDigits_ne_nil n)] at this
  exact this

/-- The call `ParseInt` on the decimal text of an integer: the integer when
it is an `int64`, a range error otherwise. -/
theorem parseInt_repr (n : Int) :
    parseInt (Int.repr n) =
      if -(2 : Int) ^ 63 ≤ n ∧ n < 2 ^ 63 then .ok n else .error .ErrRange := by
  cases n with
  | ofNat m =>
    obtain ⟨c, cs, hcs, hc0, hc9⟩ := toDigits_cons m
    have hplus : c ≠ '+' := by
      rintro rfl; exact absurd hc0 (by decide)
    have hminus : c ≠ '-' := by
      rintro rfl; exact absurd hc0 (by decide)
    have hdata : (Int.repr (Int.ofNat m)).data = c :: cs := by
      rw [← hcs]; rfl
    unfold parseInt
    rw [hdata]
    simp only [hplus, hminus, or_self, if_false, decide_False, Bool.not_false,
      true_and, Bool.false_eq_true, false_and]
    rw [if_neg (by simp), ← hcs, parseUintLoop_toDigits]
    have h63 : (2:ℤ) ^ 63 = 9223372036854775808 := by norm_num
    have h63n : (2:ℕ) ^ 63 = 9223372036854775808 := by norm_num
    have h64n : (2:ℕ) ^ 64 = 18446744073709551616 := by norm_num
    by_cases h1 : m < 2 ^ 64
    · rw [if_pos h1]
      simp only []
      by_cases h2 : m ≥ 2 ^ 63
      · rw [if_pos h2, if_neg]
        simp only [Int.ofNat_eq_coe]
        omega
      · rw [if_neg h2, if_pos]
        · rfl
        · simp only [Int.ofNat_eq_coe]
          omega
    · rw [if_neg h1]
      simp only []
      rw [if_neg]
      simp only [Int.ofNat_eq_coe]
      omega
  | negSucc m =>
    unfold parseInt
    rw [int_repr_data_neg]
    simp only [or_true, if_true, decide_True, Bool.not_true, Bool.false_eq_true,
      false_and, if_false, true_and]
    rw [if_neg (toDigits_ne_nil _), parseUintLoop_toDigits]
    have h63 : (2:ℤ) ^ 63 = 9223372036854775808 := by norm_num
    have h63n : (2:ℕ) ^ 63 = 9223372036854775808 := by norm_num
    have h64n : (2:ℕ) ^ 64 = 18446744073709551616 := by norm_num
    by_cases h1 : m + 1 < 2 ^ 64
    · rw [if_pos h1]
      simp only []
      by_cases h2 : m + 1 > 2 ^ 63
      · rw [if_pos h2, if_neg]
        rw [Int.negSucc_eq]
        omega
      · rw [if_neg h2, if_pos]
        · rw [Int.negSucc_eq]; push_cast; rfl
        · rw [Int.negSucc_eq]
          omega
    · rw [if_neg h1]
      simp only []
      rw [if_neg]
      rw [Int.negSucc_eq]
      omega

/-- The call `ParseUint` on the decimal text of a negative integer is a
syntax error. -/
theorem parseUint_repr_neg (m : Nat) :
    parseUint (Int.repr (Int.negSucc m)) = .error .ErrSyntax := by
  unfold parseUint
  rw [int_repr_data_neg]
  simp [parseUintLoop]

theorem int_repr_ofNat (m : Nat) : Int.repr (Int.ofNat m) = Nat.repr m := rfl

/-! ## Range checks -/

theorem overflowInt_eq (w : Nat) (hw : w = 8 ∨ w = 16 ∨ w = 32 ∨ w = 64) (n : Int)
    (hn : -(2 : Int) ^ 63 ≤ n ∧ n < 2 ^ 63) :
    overflowInt w n = !decide (-(2 : Int) ^ (w - 1) ≤ n ∧ n ≤ 2 ^ (w - 1) - 1) := by
  have hiff : ∀ (a b : Int) (p : Prop) [Decidable p], (a = b ↔ p) →
      (a != b) = !decide p := by
    intro a b p _ h
    by_cases hp : p
    · simp [hp, h.mpr hp]
    · simp only [hp, decide_False, Bool.not_false, bne_iff_ne, ne_eq]
      exact fun hab => hp (h.mp hab)
  unfold overflowInt wrapInt
  simp only []
  apply hiff
  rcases hw with rfl | rfl | rfl | rfl <;> norm_num at hn ⊢ <;> omega

theorem wrapInt_of_range (w : Nat) (hw : w = 8 ∨ w = 16 ∨ w = 32 ∨ w = 64) (n : Int)
    (hn : -(2 : Int) ^ (w - 1) ≤ n ∧ n ≤ 2 ^ (w - 1) - 1) : wrapInt w n = n := by
  unfold wrapInt
  rcases hw with rfl | rfl | rfl | rfl <;> norm_num at hn ⊢ <;> omega

theorem overflowUint_eq (w : Nat) (hw : w = 8 ∨ w = 16 ∨ w = 32 ∨ w = 64) (n : Nat)
    (hn : n < 2 ^ 64) :
    overflowUint w n = !decide (n ≤ 2 ^ w - 1) := by
  have hiff : ∀ (a b : Nat) (p : Prop) [Decidable p], (a = b ↔ p) →
      (a != b) = !decide p := by
    intro a b p _ h
    by_cases hp : p
    · simp [hp, h.mpr hp]
    · simp only [hp, decide_False, Bool.not_false, bne_iff_ne, ne_eq]
      exact fun hab => hp (h.mp hab)
  unfold overflowUint
  simp only []
  apply hiff
  rcases hw with rfl | rfl | rfl | rfl <;> norm_num at hn ⊢ <;> omega

theorem parseInt_range (s : String) (n : Int) (h : parseInt s = .ok n) :
    -(2 : Int) ^ 63 ≤ n ∧ n < 2 ^ 63 := by
  unfold parseInt at h
  cases hd : s.data with
  | nil => simp [hd] at h
  | cons c cs =>
    simp only [hd] at h
    have h63 : (2:ℤ) ^ 63 = 9223372036854775808 := by norm_num
    have h63n : (2:ℕ) ^ 63 = 9223372036854775808 := by norm_num
    split at h
    · simp at h
    · simp at h
    · by_cases hc : c = '-'
      · simp only [hc, decide_True, Bool.not_true, Bool.false_eq_true, false_and,
          if_false, true_and, if_true] at h
        split_ifs at h with h2
        simp only [Except.ok.injEq] at h
        omega
      · simp only [hc, decide_False, Bool.not_false, true_and, Bool.false_eq_true,
          false_and, if_false] at h
        split_ifs at h with h2
        simp only [Except.ok.injEq] at h
        omega

theorem parseUintLoop_range (cs : List Char) :
    ∀ a n, a < 2 ^ 64 → parseUintLoop cs a = .ok n → n < 2 ^ 64 := by
  induction cs with
  | nil => intro a n ha h; simp only [parseUintLoop, Except.ok.injEq] at h; omega
  | cons c cs ih =>
    intro a n ha h
    simp only [parseUintLoop] at h
    split_ifs at h with h1 h2 h3
    exact ih _ n (Nat.mod_lt _ (by norm_num)) h

theorem parseUint_range (s : String) (n : Nat) (h : parseUint s = .ok n) :
    n < 2 ^ 64 := by
  unfold parseUint at h
  split_ifs at h
  exact parseUintLoop_range _ 0 n (by norm_num) h

/-! ## The branches of `setValue` -/

theorem isSigned_bits (k : LeafKind) (hk : k.isSigned = true) :
    k.bits = 8 ∨ k.bits = 16 ∨ k.bits = 32 ∨ k.bits = 64 := by
  cases k <;> simp [LeafKind.isSigned, LeafKind.bits] at hk ⊢

theorem isUnsigned_bits (k : LeafKind) (hk : k.isUnsigned = true) :
    k.bits = 8 ∨ k.bits = 16 ∨ k.bits = 32 ∨ k.bits = 64 := by
  cases k <;> simp [LeafKind.isUnsigned, LeafKind.bits] at hk ⊢

/-- The branch of `setValue` for a number and a signed integer field. -/
theorem setValue_signed (rt : Runtime) (t : GoValue) (name : String)
    (h : Handle) (d : Payload) (hk : h.kind.isSigned = true) :
    setValue rt t name h (.val NumberType d) =
      match parseInt d.text with
      | .error err =>
        (t, some (.numberFailure name d.text h.type (some err)))
      | .ok n =>
        if overflowInt h.kind.bits n then
          (t, some (.numberFailure name d.text h.type none))
        else (t.setAt h.loc (.int (wrapInt h.kind.bits n)), none) := by
  rcases h with ⟨loc, kind, ty, fl⟩
  cases kind <;> first | rfl | simp [LeafKind.isSigned] at hk

/-- The branch of `setValue` for a number and an unsigned integer field. -/
theorem setValue_unsigned (rt : Runtime) (t : GoValue) (name : String)
    (h : Handle) (d : Payload) (hk : h.kind.isUnsigned = true) :
    setValue rt t name h (.val NumberType d) =
      match parseUint d.text with
      | .error err =>
        (t, some (.numberFailure name d.text h.type (some err)))
      | .ok n =>
        if overflowUint h.kind.bits n then
          (t, some (.numberFailure name d.text h.type none))
        else (t.setAt h.loc (.uint (n % 2 ^ h.kind.bits)), none) := by
  rcases h with ⟨loc, kind, ty, fl⟩
  cases kind <;> first | rfl | simp [LeafKind.isUnsigned] at hk

/-- The branch of `setValue` for a number and a floating-point field. -/
theorem setValue_float (rt : Runtime) (t : GoValue) (name : String)
    (h : Handle) (d : Payload) (hk : h.kind.isFloat = true) :
    setValue rt t name h (.val NumberType d) =
      match rt.parseFloat d.text h.kind.bits with
      | .error err => (t, some (.floatFailure name h h.type (some err)))
      | .ok n =>
        if overflowFloat h.kind.bits n then
          (t, some (.floatFailure name h h.type none))
        else
          (t.setAt h.loc
            (.float (if h.kind = .float32 then rt.toFloat32 n else n)), none) := by
  rcases h with ⟨loc, kind, ty, fl⟩
  cases kind <;> first | rfl | simp [LeafKind.isFloat] at hk

/-- The branch of `setValue` for a number and a field that is not numeric. -/
theorem setValue_not_numeric (rt : Runtime) (t : GoValue) (name : String)
    (h : Handle) (d : Payload) (h1 : h.kind.isSigned = false)
    (h2 : h.kind.isUnsigned = false) (h3 : h.kind.isFloat = false) :
    setValue rt t name h (.val NumberType d) =
      (t, some (.unsupportedKind name h h.kind.toKind)) := by
  rcases h with ⟨loc, kind, ty, fl⟩
  cases kind <;>
    simp [LeafKind.isSigned, LeafKind.isUnsigned, LeafKind.isFloat] at h1 h2 h3 <;>
    simp only [setValue, RightValue.typeOf, RightValue.text, if_true]

/-- The branch of `setValue` for a value that is not a number. -/
theorem setValue_concrete (rt : Runtime) (t : GoValue) (name : String)
    (h : Handle) (v : RightValue) (hv : v.typeOf ≠ some NumberType) :
    setValue rt t name h v =
      match v with
      | .nil => (t, some (.typeMismatch name none h.type))
      | .val ty d =>
        if ty = h.type then (t.setAt h.loc d, none)
        else (t, some (.typeMismatch name (some ty) h.type)) := by
  unfold setValue
  simp only []
  rw [if_neg hv]
  cases v with
  | nil => simp [RightValue.typeOf]
  | val ty d =>
    by_cases hty : ty = h.type
    · simp [RightValue.typeOf, hty]
    · simp [RightValue.typeOf, hty]

/-! ## The value coercer on integers and on concrete values -/

/-- A path that `locateField` resolves leads to a terminal value of the
handle's kind and type. -/
theorem locateField_getAt (rt : Runtime) (root : GoValue) (p : Path)
    (name : String) (h : Handle) (hl : locateField rt root p = .ok name h) :
    ∃ d, root.getAt h.loc = some (.leaf h.kind h.tyName d) := by
  unfold locateField at hl
  split at hl
  · simp at hl
  · simp at hl
  · rename_i fv fname hw
    split_ifs at hl
    simp only [Located.ok.injEq] at hl
    obtain ⟨-, rfl⟩ := hl
    obtain ⟨rel, d, h1, h2⟩ := patchRecursive_found _ _ _ _ _ _ _ _ hw
    exact ⟨d, by simpa [h1] using h2⟩

/-- A path that `locateField` resolves leads to a settable field. -/
theorem locateField_canSet (rt : Runtime) (root : GoValue) (p : Path)
    (name : String) (h : Handle) (hl : locateField rt root p = .ok name h) :
    h.canSet = true := by
  unfold locateField at hl
  split at hl
  · simp at hl
  · simp at hl
  · split_ifs at hl with hc
    simp only [Located.ok.injEq] at hl
    obtain ⟨-, rfl⟩ := hl
    simpa using hc

/-- Claim C4. Integer overflow boundary.  For a located settable field of a
signed integer kind of width `w` and an integer `n` written in decimal,
`setValue` succeeds exactly when `-2^(w-1) ≤ n ≤ 2^(w-1) - 1`, and for an
unsigned kind exactly when `0 ≤ n ≤ 2^w - 1` (so a negative `n` is always
rejected); on success the field holds exactly `n`, otherwise the error is the
one of a failed number conversion and the record is left as it was. -/
theorem integer_overflow_boundary (rt : Runtime) (root : GoValue) (p : Path)
    (name : String) (h : Handle) (hl : locateField rt root p = .ok name h)
    (n : Int) :
    (h.kind.isSigned = true →
      ((setValue rt root name h (numVal (Int.repr n))).2 = none ↔
        -(2 : Int) ^ (h.kind.bits - 1) ≤ n ∧ n ≤ 2 ^ (h.kind.bits - 1) - 1) ∧
      ((setValue rt root name h (numVal (Int.repr n))).2 = none →
        (setValue rt root name h (numVal (Int.repr n))).1.getAt h.loc
          = some (.leaf h.kind h.tyName (.int n)))) ∧
    (h.kind.isUnsigned = true →
      ((setValue rt root name h (numVal (Int.repr n))).2 = none ↔
        0 ≤ n ∧ n ≤ 2 ^ h.kind.bits - 1) ∧
      ((setValue rt root name h (numVal (Int.repr n))).2 = none →
        (setValue rt root name h (numVal (Int.repr n))).1.getAt h.loc
          = some (.leaf h.kind h.tyName (.uint n.toNat)))) ∧
    ((h.kind.isSigned = true ∨ h.kind.isUnsigned = true) →
      (setValue rt root name h (numVal (Int.repr n))).2 ≠ none →
      (setValue rt root name h (numVal (Int.repr n))).1 = root ∧
      ∃ err, (setValue rt root name h (numVal (Int.repr n))).2
        = some (.numberFailure name (Int.repr n) h.type err)) := by
  obtain ⟨d0, hg⟩ := locateField_getAt rt root p name h hl
  have h63 : (2:ℤ) ^ 63 = 9223372036854775808 := by norm_num
  have h64n : (2:ℕ) ^ 64 = 18446744073709551616 := by norm_num
  have h64 : (2:ℤ) ^ 64 = 18446744073709551616 := by norm_num
  -- the signed branch, evaluated
  have hsigned : h.kind.isSigned = true →
      setValue rt root name h (numVal (Int.repr n)) =
        if -(2 : Int) ^ (h.kind.bits - 1) ≤ n ∧ n ≤ 2 ^ (h.kind.bits - 1) - 1
        then (root.setAt h.loc (.int n), none)
        else if -(2 : Int) ^ 63 ≤ n ∧ n < 2 ^ 63
          then (root, some (.numberFailure name (Int.repr n) h.type none))
          else (root, some (.numberFailure name (Int.repr n) h.type
            (some .ErrRange))) := by
    intro hk
    have hb := isSigned_bits h.kind hk
    rw [numVal, setValue_signed rt root name h _ hk]
    simp only [Payload.text]
    rw [parseInt_repr]
    by_cases h64r : -(2 : Int) ^ 63 ≤ n ∧ n < 2 ^ 63
    · rw [if_pos h64r]
      simp only []
      rw [overflowInt_eq _ hb n h64r]
      by_cases hr : -(2 : Int) ^ (h.kind.bits - 1) ≤ n ∧ n ≤ 2 ^ (h.kind.bits - 1) - 1
      · rw [if_pos hr, wrapInt_of_range _ hb n hr]
        simp [hr]
      · rw [if_neg hr, if_pos h64r]
        simp [hr]
    · rw [if_neg h64r]
      simp only []
      rw [if_neg, if_neg h64r]
      intro hr
      apply h64r
      rcases hb with hb | hb | hb | hb <;> rw [hb] at hr <;> norm_num at hr <;> omega
  -- the unsigned branch, evaluated
  have hunsigned : h.kind.isUnsigned = true →
      setValue rt root name h (numVal (Int.repr n)) =
        if 0 ≤ n ∧ n ≤ 2 ^ h.kind.bits - 1
        then (root.setAt h.loc (.uint n.toNat), none)
        else if n < 0
          then (root, some (.numberFailure name (Int.repr n) h.type
            (some .ErrSyntax)))
          else if n < 2 ^ 64
            then (root, some (.numberFailure name (Int.repr n) h.type none))
            else (root, some (.numberFailure name (Int.repr n) h.type
              (some .ErrRange))) := by
    intro hk
    have hb := isUnsigned_bits h.kind hk
    rw [numVal, setValue_unsigned rt root name h _ hk]
    simp only [Payload.text]
    cases n with
    | negSucc m =>
      rw [parseUint_repr_neg]
      simp only []
      have hneg : Int.negSucc m < 0 := Int.negSucc_lt_zero m
      rw [if_neg (by omega), if_pos hneg]
    | ofNat m =>
      rw [int_repr_ofNat, parseUint_repr]
      have hnn : ¬ ((Int.ofNat m) < 0) := by simp
      by_cases h64r : m < 2 ^ 64
      · rw [if_pos h64r]
        simp only []
        rw [overflowUint_eq _ hb m h64r]
        by_cases hr : m ≤ 2 ^ h.kind.bits - 1
        · have hr' : 0 ≤ Int.ofNat m ∧ Int.ofNat m ≤ 2 ^ h.kind.bits - 1 := by
            refine ⟨by simp, ?_⟩
            rcases hb with hb | hb | hb | hb <;> rw [hb] at hr ⊢ <;>
              norm_num at hr ⊢ <;> omega
          rw [if_pos hr']
          have hmod : m % 2 ^ h.kind.bits = m := by
            apply Nat.mod_eq_of_lt
            rcases hb with hb | hb | hb | hb <;> rw [hb] at hr ⊢ <;>
              norm_num at hr ⊢ <;> omega
          simp [hr, hmod]
        · have hr' : ¬ (0 ≤ Int.ofNat m ∧ Int.ofNat m ≤ 2 ^ h.kind.bits - 1) := by
            rintro ⟨-, hle⟩
            apply hr
            rcases hb with hb | hb | hb | hb <;> rw [hb] at hle ⊢ <;>
              norm_num at hle ⊢ <;> omega
          have h3 : Int.ofNat m < 2 ^ 64 := by
            rw [h64]; simp only [Int.ofNat_eq_coe]; omega
          rw [if_neg hr', if_neg hnn, if_pos h3]
          simp [hr]
      · rw [if_neg h64r]
        simp only []
        have hr' : ¬ (0 ≤ Int.ofNat m ∧ Int.ofNat m ≤ 2 ^ h.kind.bits - 1) := by
          rintro ⟨-, hle⟩
          apply h64r
          rcases hb with hb | hb | hb | hb <;> rw [hb] at hle <;>
            norm_num at hle <;> omega
        have h3 : ¬ Int.ofNat m < 2 ^ 64 := by
          rw [h64]; simp only [Int.ofNat_eq_coe]; omega
        rw [if_neg hr', if_neg hnn, if_neg h3]
  refine ⟨fun hk => ?_, fun hk => ?_, fun hk hne => ?_⟩
  · rw [hsigned hk]
    constructor
    · constructor
      · intro hnone
        by_contra hr
        rw [if_neg hr] at hnone
        split_ifs at hnone
      · intro hr; rw [if_pos hr]
    · intro hnone
      by_cases hr : -(2 : Int) ^ (h.kind.bits - 1) ≤ n ∧ n ≤ 2 ^ (h.kind.bits - 1) - 1
      · rw [if_pos hr]
        exact GoValue.getAt_setAt_same root h.loc h.kind h.tyName d0 _ hg
      · rw [if_neg hr] at hnone
        split_ifs at hnone
  · rw [hunsigned hk]
    constructor
    · constructor
      · intro hnone
        by_contra hr
        rw [if_neg hr] at hnone
        split_ifs at hnone
      · intro hr; rw [if_pos hr]
    · intro hnone
      by_cases hr : 0 ≤ n ∧ n ≤ 2 ^ h.kind.bits - 1
      · rw [if_pos hr]
        exact GoValue.getAt_setAt_same root h.loc h.kind h.tyName d0 _ hg
      · rw [if_neg hr] at hnone
        split_ifs at hnone
  · rcases hk with hk | hk
    · rw [hsigned hk] at hne ⊢
      split_ifs at hne ⊢ with c1 c2
      · exact absurd rfl hne
      · exact ⟨rfl, _, rfl⟩
      · exact ⟨rfl, _, rfl⟩
    · rw [hunsigned hk] at hne ⊢
      split_ifs at hne ⊢ with c1 c2 c3
      · exact absurd rfl hne
      · exact ⟨rfl, _, rfl⟩
      · exact ⟨rfl, _, rfl⟩
      · exact ⟨rfl, _, rfl⟩

/-- The instances of C4 named in the claim, on the `int32` field `Age` and the
`uint8` field `Octet`: the largest value is accepted and stored, the next one
is rejected, and a negative number is rejected for the unsigned field. -/
theorem integer_overflow_boundary_witness :
    (setValue asciiRuntime person "Age" ⟨[0, 1], .int32, "int32", ⟨true, false, false⟩⟩
        (numVal (Int.repr 2147483647))).1.getAt [0, 1]
      = some (.leaf .int32 "int32" (.int 2147483647)) ∧
    (setValue asciiRuntime person "Age" ⟨[0, 1], .int32, "int32", ⟨true, false, false⟩⟩
        (numVal (Int.repr 2147483648))).2 ≠ none ∧
    (setValue asciiRuntime gauge "Octet" ⟨[0, 2], .uint8, "uint8", ⟨true, false, false⟩⟩
        (numVal (Int.repr (-1)))).2 ≠ none := by
  have hAge := integer_overflow_boundary asciiRuntime person "age" "Age"
    ⟨[0, 1], .int32, "int32", ⟨true, false, false⟩⟩ (by decide)
  have hOct := integer_overflow_boundary asciiRuntime gauge "octet" "Octet"
    ⟨[0, 2], .uint8, "uint8", ⟨true, false, false⟩⟩ (by decide)
  refine ⟨?_, ?_, ?_⟩
  · exact ((hAge 2147483647).1 rfl).2
      ((((hAge 2147483647).1 rfl).1).mpr (by norm_num [LeafKind.bits]))
  · intro hn
    have := (((hAge 2147483648).1 rfl).1).mp hn
    norm_num [LeafKind.bits] at this
  · intro hn
    have := (((hOct (-1)).2.1 rfl).1).mp hn
    norm_num [LeafKind.bits] at this

/-- Claim C5. For a located settable field and a value that is not a number
(not of type `json.Number`), `setValue` succeeds exactly when the dynamic type
of the value is the type of the field; it then stores the value's data as it
is; otherwise it returns the type-mismatch error and leaves the record as it
was.  Nothing is converted: an `int` for a `float64` field, or for a field of
a named integer type, has another type and fails. -/
theorem concrete_value_needs_identical_type (rt : Runtime) (root : GoValue)
    (p : Path) (name : String) (h : Handle)
    (hl : locateField rt root p = .ok name h) (v : RightValue)
    (hv : v.typeOf ≠ some NumberType) :
    ((setValue rt root name h v).2 = none ↔ v.typeOf = some h.type) ∧
    (∀ d, v = .val h.type d →
      (setValue rt root name h v).2 = none ∧
      (setValue rt root name h v).1.getAt h.loc
        = some (.leaf h.kind h.tyName d)) ∧
    (v.typeOf ≠ some h.type →
      setValue rt root name h v
        = (root, some (.typeMismatch name v.typeOf h.type))) := by
  obtain ⟨d0, hg⟩ := locateField_getAt rt root p name h hl
  rw [setValue_concrete rt root name h v hv]
  cases v with
  | nil => simp [RightValue.typeOf]
  | val ty d =>
    by_cases hty : ty = h.type
    · subst hty
      simp only [RightValue.typeOf, if_true, true_iff, RightValue.val.injEq,
        true_and, ne_eq, not_true_eq_false, false_implies, and_true]
      intro d' hd
      subst hd
      exact GoValue.getAt_setAt_same root h.loc h.kind h.tyName d0 _ hg
    · simp only [RightValue.typeOf, if_neg hty, Option.some.injEq, hty,
        RightValue.val.injEq, false_and, false_implies, implies_true,
        ne_eq, not_false_eq_true, true_implies, and_true]
      simp

/-- The instances of C5 named in the claim: an `int` for the `float64` field
`Level` and an `int` for the field `Count` of the named type `main.MyInt` are
rejected as type mismatches, and a `string` for `Name` is stored. -/
theorem concrete_value_needs_identical_type_witness :
    setValue asciiRuntime gauge "Level" ⟨[0, 0], .float64, "float64", ⟨true, false, false⟩⟩
        (intVal 3)
      = (gauge, some (.typeMismatch "Level" (some ⟨.int, "int"⟩)
          ⟨.float64, "float64"⟩)) ∧
    setValue asciiRuntime gauge "Count" ⟨[0, 1], .int, "main.MyInt", ⟨true, false, false⟩⟩
        (intVal 3)
      = (gauge, some (.typeMismatch "Count" (some ⟨.int, "int"⟩)
          ⟨.int, "main.MyInt"⟩)) ∧
    (setValue asciiRuntime person "Name" ⟨[0, 0], .string, "string", ⟨true, false, false⟩⟩
        (strVal "Alice")).1.getAt [0, 0]
      = some (.leaf .string "string" (.str "Alice")) :=
  ⟨(concrete_value_needs_identical_type asciiRuntime gauge "level" "Level"
      ⟨[0, 0], .float64, "float64", ⟨true, false, false⟩⟩ (by decide) (intVal 3)
      (by decide)).2.2 (by decide),
    (concrete_value_needs_identical_type asciiRuntime gauge "count" "Count"
      ⟨[0, 1], .int, "main.MyInt", ⟨true, false, false⟩⟩ (by decide) (intVal 3)
      (by decide)).2.2 (by decide),
    ((concrete_value_needs_identical_type asciiRuntime person "name" "Name"
      ⟨[0, 0], .string, "string", ⟨true, false, false⟩⟩ (by decide)
      (strVal "Alice") (by decide)).2.1 (.str "Alice") rfl).2⟩

/-! ## Tokens -/

theorem splitDotAux_cons (cs : List Char) :
    ∀ cur, ∃ seg rest, splitDotAux cs cur = seg :: rest := by
  induction cs with
  | nil => intro cur; exact ⟨_, _, rfl⟩
  | cons c cs ih =>
    intro cur
    simp only [splitDotAux]
    split
    · exact ⟨_, _, rfl⟩
    · exact ih _

/-- A path always has a first token: the first segment, upper-cased. -/
theorem tokenize_cons (rt : Runtime) (p : Path) :
    ∃ rest, tokenize rt p = upperFirst rt ((splitDot p).headD "") :: rest := by
  obtain ⟨seg, rest, h⟩ := splitDotAux_cons p.data []
  unfold tokenize splitDot
  rw [h]
  exact ⟨rest.map (upperFirst rt), rfl⟩

/-! ## Paths that do not resolve -/

/-- A struct none of whose fields has the name of the current token gives no
handle. -/
theorem scanFields_not_mem : ∀ (fs : Fields) (loc : List Nat) (fl : Flags)
    (j : Nat) (tok : String) (toks : List String) (path : String),
    tok ∉ fs.names → scanFields loc fl j fs (tok :: toks) path = .notFound
  | .nil, _, _, _, _, _, _, _ => by simp [scanFields]
  | .cons n ex em v rest, loc, fl, j, tok, toks, path, hn => by
    simp only [Fields.names, List.mem_cons, not_or] at hn
    simp only [scanFields]
    rw [if_neg (fun h => hn.1 h.symm)]
    exact scanFields_not_mem rest loc fl (j + 1) tok toks path hn.2

theorem patchRecursive_derefs_not_mem {root w : GoValue} (hr : Derefs root w) :
    ∀ (fs : Fields), w = .struct fs → ∀ (fn : String) (loc : List Nat)
      (fl : Flags) (tok : String) (toks : List String) (path : String),
      tok ∉ fs.names →
      patchRecursive fn loc fl root (tok :: toks) path = .notFound := by
  induction hr with
  | here v =>
    intro fs hw fn loc fl tok toks path hn
    subst hw
    simp only [patchRecursive]
    exact scanFields_not_mem fs loc fl 0 tok toks path hn
  | ptr _ ih =>
    intro fs hw fn loc fl tok toks path hn
    simp only [patchRecursive]
    exact ih fs hw fn _ _ tok toks path hn
  | iface _ ih =>
    intro fs hw fn loc fl tok toks path hn
    simp only [patchRecursive]
    exact ih fs hw fn _ _ tok toks path hn

/-- A walk that gives no handle makes `PatchIt` fail with the error of line
59 and leave the record. -/
theorem PatchIt_notFound (rt : Runtime) (root : GoValue) (p : Path)
    (v : RightValue) (rest : List (Path × RightValue))
    (hw : patchRecursive "" [] Flags.ofValueOf root (tokenize rt p) ""
      = .notFound) :
    PatchIt rt root ((p, v) :: rest) = (root, .failure (.pathNotResolved p)) := by
  have hl : locateField rt root p = .err (.pathNotResolved p) := by
    unfold locateField
    rw [hw]
  rw [PatchIt, hl]

/-- Claim C6. When the record is a struct, reached directly or through
pointers and interfaces, and no field declared on it has the name of the
first segment of the path with its first character upper-cased, `PatchIt`
fails with the path-not-resolved error and the record is unchanged. -/
theorem unknown_first_segment (rt : Runtime) (root : GoValue) (fs : Fields)
    (p : Path) (v : RightValue) (hr : Derefs root (.struct fs))
    (hn : upperFirst rt ((splitDot p).headD "") ∉ fs.names) :
    PatchIt rt root [(p, v)] = (root, .failure (.pathNotResolved p)) ∧
      (PatchError.pathNotResolved p).cause = .PathNotResolved := by
  obtain ⟨rest, ht⟩ := tokenize_cons rt p
  refine ⟨PatchIt_notFound rt root p v [] ?_, rfl⟩
  rw [ht]
  exact patchRecursive_derefs_not_mem hr fs rfl _ _ _ _ _ _ hn

/-- The example of C6: the patch `{"unknown.field": 1}` on a record with no
field `Unknown`. -/
theorem unknown_first_segment_witness :
    PatchIt asciiRuntime person [("unknown.field", intVal 1)]
      = (person, .failure (.pathNotResolved "unknown.field")) :=
  (unknown_first_segment asciiRuntime person
    (.cons "Name" true false (.leaf .string "string" (.str ""))
    (.cons "Age" true false (.leaf .int32 "int32" (.int 0))
    (.cons "Address" true false
      (.struct (.cons "City" true false (.leaf .string "string" (.str ""))
        .nil))
    .nil)))
    "unknown.field" (intVal 1) (.ptr (.here _)) (by decide)).1

/-- The scan of a struct goes on, with the remaining tokens, in the first
field that has the name of the current token. -/
theorem scanFields_lookup : ∀ (fs : Fields) (loc : List Nat) (fl : Flags)
    (j : Nat) (tok : String) (toks : List String) (path : String)
    (value : GoValue), fs.lookup tok = some value →
    ∃ name loc' fl' path', scanFields loc fl j fs (tok :: toks) path
      = patchRecursive name loc' fl' value toks path'
  | .nil, _, _, _, _, _, _, _, h => by simp [Fields.lookup] at h
  | .cons n ex em v rest, loc, fl, j, tok, toks, path, value, h => by
    simp only [Fields.lookup] at h
    simp only [scanFields]
    by_cases hn : n = tok
    · rw [if_pos hn] at h ⊢
      simp only [Option.some.injEq] at h
      subst h
      exact ⟨_, _, _, _, rfl⟩
    · rw [if_neg hn] at h ⊢
      exact scanFields_lookup rest loc fl (j + 1) tok toks path value h

/-- A walk that reaches an array or a slice gives no handle. -/
theorem patchRecursive_reaches_seq {root w : GoValue} {toks : List String}
    (hr : Reaches root toks w) :
    ∀ (s : Bool) (x : Payload), w = .seq s x → ∀ (fn : String) (loc : List Nat)
      (fl : Flags) (path : String),
      patchRecursive fn loc fl root toks path = .notFound := by
  induction hr with
  | here v toks =>
    intro s x hw fn loc fl path
    subst hw
    simp [patchRecursive]
  | ptr _ ih =>
    intro s x hw fn loc fl path
    simp only [patchRecursive]
    exact ih s x hw fn _ _ path
  | iface _ ih =>
    intro s x hw fn loc fl path
    simp only [patchRecursive]
    exact ih s x hw fn _ _ path
  | field hlk _ ih =>
    intro s x hw fn loc fl path
    simp only [patchRecursive]
    obtain ⟨name, loc', fl', path', hsc⟩ :=
      scanFields_lookup _ loc fl 0 _ _ path _ hlk
    rw [hsc]
    exact ih s x hw name loc' fl' path'

/-- Claim C10. When the walk along the tokens of a path reaches an array or a
slice, as the value of the last field addressed or of a field on the way,
`PatchIt` fails with the path-not-resolved error, whatever tokens remain and
whatever the value is, and the record is unchanged. -/
theorem sequence_never_resolves (rt : Runtime) (root : GoValue) (p : Path)
    (v : RightValue) (s : Bool) (x : Payload)
    (hr : Reaches root (tokenize rt p) (.seq s x)) :
    PatchIt rt root [(p, v)] = (root, .failure (.pathNotResolved p)) ∧
      (PatchError.pathNotResolved p).cause = .PathNotResolved :=
  ⟨PatchIt_notFound rt root p v []
    (patchRecursive_reaches_seq hr s x rfl _ _ _ _), rfl⟩

/-- Two instances of C10: a slice as the last field addressed, and an array
on the way to a further token. -/
theorem sequence_never_resolves_witness :
    PatchIt asciiRuntime roster [("tags", strVal "x")]
      = (roster, .failure (.pathNotResolved "tags")) ∧
    PatchIt asciiRuntime roster [("team.members.name", strVal "x")]
      = (roster, .failure (.pathNotResolved "team.members.name")) := by
  have h1 : tokenize asciiRuntime "tags" = ["Tags"] := by decide
  have h2 : tokenize asciiRuntime "team.members.name"
      = ["Team", "Members", "Name"] := by decide
  exact ⟨(sequence_never_resolves asciiRuntime roster "tags" (strVal "x") true
      (.other 0) (h1 ▸ .ptr (.field rfl (.here _ _)))).1,
    (sequence_never_resolves asciiRuntime roster "team.members.name"
      (strVal "x") false (.other 0)
      (h2 ▸ .ptr (.field rfl (.field rfl (.here _ _))))).1⟩

/-! ## Case of the first character -/

theorem upperFirst_mk_cons (rt : Runtime) (c : Char) (r : List Char) :
    upperFirst rt (String.mk (c :: r)) = String.mk (rt.toUpper c :: r) := rfl

/-- Segments that differ in the case of their first character have the same
token. -/
theorem SegVariant.upperFirst_eq (rt : Runtime)
    (hup : ∀ c, rt.toUpper (rt.toUpper c) = rt.toUpper c) {s t : String}
    (hv : SegVariant rt s t) : upperFirst rt s = upperFirst rt t := by
  rcases hv with rfl | ⟨c, c', r, rfl, rfl, hc | hc⟩
  · rfl
  · rw [upperFirst_mk_cons, upperFirst_mk_cons, hc, hup]
  · rw [upperFirst_mk_cons, upperFirst_mk_cons, hc, hup]

theorem map_upperFirst_eq (rt : Runtime)
    (hup : ∀ c, rt.toUpper (rt.toUpper c) = rt.toUpper c) {l₁ l₂ : List String}
    (hv : List.Forall₂ (SegVariant rt) l₁ l₂) :
    l₁.map (upperFirst rt) = l₂.map (upperFirst rt) := by
  induction hv with
  | nil => rfl
  | cons h _ ih => simp only [List.map_cons, ih, h.upperFirst_eq rt hup]

/-- Two paths with the same tokens have the same effect and the same kind of
outcome. -/
theorem PatchIt_tokens_eq (rt : Runtime) (root : GoValue) (p q : Path)
    (v : RightValue) (ht : tokenize rt p = tokenize rt q) :
    (PatchIt rt root [(p, v)]).1 = (PatchIt rt root [(q, v)]).1 ∧
    (PatchIt rt root [(p, v)]).2.cause = (PatchIt rt root [(q, v)]).2.cause := by
  simp only [PatchIt, locateField, ht]
  cases patchRecursive "" [] Flags.ofValueOf root (tokenize rt q) "" with
  | panics => exact ⟨rfl, rfl⟩
  | notFound => exact ⟨rfl, rfl⟩
  | found h name =>
    cases hc : h.canSet <;> simp [hc, Outcome.cause, PatchError.cause]

/-- Claim C8. Two paths whose segments differ at most in the case of their
first character are tokenized alike, and `PatchIt` with either of them and
the same value leaves the same record and ends alike: success for both, or a
failure of the same cause for both.  (Upper-casing is taken to be idempotent,
as `unicode.ToUpper` is.) -/
theorem first_character_case_irrelevant (rt : Runtime)
    (hup : ∀ c, rt.toUpper (rt.toUpper c) = rt.toUpper c) (p q : Path)
    (hv : List.Forall₂ (SegVariant rt) (splitDot p) (splitDot q))
    (root : GoValue) (v : RightValue) :
    tokenize rt p = tokenize rt q ∧
    (PatchIt rt root [(p, v)]).1 = (PatchIt rt root [(q, v)]).1 ∧
    (PatchIt rt root [(p, v)]).2.cause = (PatchIt rt root [(q, v)]).2.cause :=
  have ht : tokenize rt p = tokenize rt q := map_upperFirst_eq rt hup hv
  ⟨ht, PatchIt_tokens_eq rt root p q v ht⟩

theorem ofNat_toNat_upper (n : Nat) (h : 97 ≤ n ∧ n ≤ 122) :
    (Char.ofNat (n - 32)).toNat = n - 32 := by
  obtain ⟨h1, h2⟩ := h
  interval_cases n <;> rfl

/-- Upper-casing of ASCII is idempotent. -/
theorem asciiRuntime_idempotent (c : Char) :
    asciiRuntime.toUpper (asciiRuntime.toUpper c) = asciiRuntime.toUpper c := by
  show Char.toUpper (Char.toUpper c) = Char.toUpper c
  by_cases h : 97 ≤ c.toNat ∧ c.toNat ≤ 122
  · have h1 : Char.toUpper c = Char.ofNat (c.toNat - 32) := by
      unfold Char.toUpper
      simp only [ge_iff_le]
      rw [if_pos h]
    have h2 := ofNat_toNat_upper c.toNat h
    rw [h1]
    unfold Char.toUpper
    simp only [ge_iff_le]
    rw [if_neg]
    rw [h2]
    omega
  · have h1 : Char.toUpper c = c := by
      unfold Char.toUpper
      simp only [ge_iff_le]
      rw [if_neg h]
    rw [h1, h1]

/-- The instances of C8 named in the claim: `address.city` and `Address.City`
(and likewise `name` and `Name`) have the same tokens and the same effect. -/
theorem first_character_case_irrelevant_witness :
    tokenize asciiRuntime "address.city" = tokenize asciiRuntime "Address.City" ∧
    (PatchIt asciiRuntime person [("address.city", strVal "Boston")]).1
      = (PatchIt asciiRuntime person [("Address.City", strVal "Boston")]).1 ∧
    (PatchIt asciiRuntime person [("address.city", strVal "Boston")]).2.cause
      = (PatchIt asciiRuntime person [("Address.City", strVal "Boston")]).2.cause := by
  have h1 : splitDot "address.city" = ["address", "city"] := by decide
  have h2 : splitDot "Address.City" = ["Address", "City"] := by decide
  exact first_character_case_irrelevant asciiRuntime asciiRuntime_idempotent
    "address.city" "Address.City"
    (by
      rw [h1, h2]
      exact .cons (Or.inr ⟨'a', 'A', "ddress".data, rfl, rfl, Or.inl rfl⟩)
        (.cons (Or.inr ⟨'c', 'C', "ity".data, rfl, rfl, Or.inl rfl⟩) .nil))
    person (strVal "Boston")

/-- The claim C9 fails on the record `{Name, Age, Address}`: the path `nAme`
is tokenized to `NAme`, no field has that name, and `PatchIt` does not
succeed but fails with the path-not-resolved error, `Name` untouched. -/
theorem nAme_not_resolved :
    tokenize asciiRuntime "nAme" = ["NAme"] ∧
    (PatchIt asciiRuntime person [("nAme", strVal "Alice")]).2 ≠ .success ∧
    PatchIt asciiRuntime person [("nAme", strVal "Alice")]
      = (person, .failure (.pathNotResolved "nAme")) := by
  decide

/-- Claim C9, amended. Only the first character of a segment is upper-cased;
the rest is matched as written.  The path `nAme` is tokenized to `NAme`, and
on a struct (reached directly or through pointers and interfaces) that
declares no field `NAme`, as one whose field is `Name`, `PatchIt` with
`{"nAme": v}` fails with the path-not-resolved error for every `v` and leaves
the record unchanged. -/
theorem only_first_character_normalised (rt : Runtime)
    (hn : rt.toUpper 'n' = 'N') (root : GoValue) (fs : Fields)
    (hr : Derefs root (.struct fs)) (hno : "NAme" ∉ fs.names)
    (v : RightValue) :
    tokenize rt "nAme" = ["NAme"] ∧
    PatchIt rt root [("nAme", v)] = (root, .failure (.pathNotResolved "nAme")) := by
  have ht : tokenize rt "nAme" = ["NAme"] := by
    have hs : splitDot "nAme" = ["nAme"] := by decide
    unfold tokenize
    rw [hs]
    show [String.mk (rt.toUpper 'n' :: ['A', 'm', 'e'])] = ["NAme"]
    rw [hn]
  refine ⟨ht, PatchIt_notFound rt root "nAme" v [] ?_⟩
  rw [ht]
  exact patchRecursive_derefs_not_mem hr fs rfl _ _ _ _ _ _ hno

/-- An instance of the amended C9 on the record `{Name, Age, Address}`. -/
theorem only_first_character_normalised_witness :
    tokenize asciiRuntime "nAme" = ["NAme"] ∧
    PatchIt asciiRuntime person [("nAme", strVal "Alice")]
      = (person, .failure (.pathNotResolved "nAme")) :=
  only_first_character_normalised asciiRuntime rfl person
    (.cons "Name" true false (.leaf .string "string" (.str ""))
    (.cons "Age" true false (.leaf .int32 "int32" (.int 0))
    (.cons "Address" true false
      (.struct (.cons "City" true false (.leaf .string "string" (.str ""))
        .nil))
    .nil)))
    (.ptr (.here _)) (by decide) (strVal "Alice")

/-! ## Entries as assignments -/

/-- An entry that goes through on a record is, on every record of the same
shape, an assignment of one datum at one position. -/
theorem entryApplies_assign (rt : Runtime) (root : GoValue)
    (e : Path × RightValue) (ha : entryApplies rt root e = true) :
    ∃ l d, entryLoc rt root e = some l ∧
      ∀ t, SameShape t root → ∀ rest,
        PatchIt rt t (e :: rest) = PatchIt rt (t.setAt l d) rest := by
  obtain ⟨name, h, d, hl, hset, -⟩ := entryApplies_spec rt root e ha
  refine ⟨h.loc, d, by simp [entryLoc, hl], fun t hs rest => ?_⟩
  obtain ⟨p, v⟩ := e
  rw [PatchIt, locateField_congr rt hs, hl]
  simp only [hset]

/-- When the specification's coercion yields nothing, `setValue` returns an
error. -/
theorem specCoerce_none_setValue (rt : Runtime) (name : String) (h : Handle)
    (v : RightValue) (hc : specCoerce rt h v = none) :
    ∀ t, (setValue rt t name h v).2 ≠ none := by
  intro t
  cases v with
  | nil =>
    rw [setValue_concrete rt t name h _ (by simp [RightValue.typeOf])]
    simp
  | val ty data =>
    rw [specCoerce] at hc
    by_cases hty : ty = NumberType
    · subst hty
      rw [if_pos rfl] at hc
      by_cases hs : h.kind.isSigned = true
      · rw [if_pos hs] at hc
        rw [setValue_signed rt t name h data hs]
        cases hp : parseInt data.text with
        | error e => simp
        | ok n =>
          rw [hp] at hc
          simp only [] at hc ⊢
          have hb := isSigned_bits h.kind hs
          rw [overflowInt_eq _ hb n (parseInt_range _ _ hp)]
          split_ifs at hc with hr
          simp [hr]
      · rw [if_neg hs] at hc
        by_cases hu : h.kind.isUnsigned = true
        · rw [if_pos hu] at hc
          rw [setValue_unsigned rt t name h data hu]
          cases hp : parseUint data.text with
          | error e => simp
          | ok n =>
            rw [hp] at hc
            simp only [] at hc ⊢
            have hb := isUnsigned_bits h.kind hu
            rw [overflowUint_eq _ hb n (parseUint_range _ _ hp)]
            split_ifs at hc with hr
            simp [hr]
        · rw [if_neg hu] at hc
          by_cases hf : h.kind.isFloat = true
          · rw [if_pos hf] at hc
            rw [setValue_float rt t name h data hf]
            cases hp : rt.parseFloat data.text h.kind.bits with
            | error e => simp
            | ok x =>
              rw [hp] at hc
              simp only [] at hc ⊢
              by_cases ho : overflowFloat h.kind.bits x = true
              · rw [if_pos ho]; simp
              · rw [if_neg ho] at hc; simp at hc
          · rw [setValue_not_numeric rt t name h data (by simpa using hs)
              (by simpa using hu) (by simpa using hf)]
            simp
    · rw [if_neg hty] at hc
      rw [setValue_concrete rt t name h _ (by simpa [RightValue.typeOf] using hty)]
      split_ifs at hc with hty2
      simp [hty2]

/-- The code on the input of claim C11: the path `address` is used up when
the walk enters the struct `Address`, the struct case reads `tokens[0]` on the
empty list, and the call panics instead of returning the path-not-resolved
error; so does every walk that enters a struct with a field and no token
left. -/
theorem locate_aborts_when_tokens_run_out :
    tokenize asciiRuntime "address" = ["Address"] ∧
    locateField asciiRuntime person "address" = .panics ∧
    PatchIt asciiRuntime person [("address", strVal "x")] = (person, .panics) ∧
    (∀ fn loc fl name exported embedded value rest path,
      patchRecursive fn loc fl
        (.struct (.cons name exported embedded value rest)) [] path
        = .panics) :=
  ⟨by decide, by decide, by decide, fun _ _ _ _ _ _ _ _ _ => rfl⟩

/-! ## Applying an entry twice -/

mutual
/-- Assigning the same datum twice at a position is assigning it once. -/
theorem GoValue.setAt_idem (v : GoValue) (l : List Nat) (d : Payload) :
    (v.setAt l d).setAt l d = v.setAt l d := by
  cases v with
  | invalid => cases l <;> simp [GoValue.setAt]
  | seq s y => cases l <;> simp [GoValue.setAt]
  | leaf k t y => cases l <;> simp [GoValue.setAt]
  | ptr e =>
    cases l with
    | nil => simp [GoValue.setAt]
    | cons i l =>
      cases i with
      | zero =>
        simp only [GoValue.setAt]
        rw [GoValue.setAt_idem e l d]
      | succ i => simp [GoValue.setAt]
  | iface e =>
    cases l with
    | nil => simp [GoValue.setAt]
    | cons i l =>
      cases i with
      | zero =>
        simp only [GoValue.setAt]
        rw [GoValue.setAt_idem e l d]
      | succ i => simp [GoValue.setAt]
  | struct fs =>
    cases l with
    | nil => simp [GoValue.setAt]
    | cons i l =>
      simp only [GoValue.setAt]
      rw [Fields.setAt_idem_below fs i l d]
/-- The same below the fields of a struct. -/
theorem Fields.setAt_idem_below (fs : Fields) (i : Nat) (l : List Nat)
    (d : Payload) : (fs.setAt i l d).setAt i l d = fs.setAt i l d := by
  cases fs with
  | nil => simp [Fields.setAt]
  | cons n ex em v rest =>
    cases i with
    | zero =>
      simp only [Fields.setAt]
      rw [GoValue.setAt_idem v l d]
    | succ i =>
      simp only [Fields.setAt]
      rw [Fields.setAt_idem_below rest i l d]
end

/-- Claim C12. Applying an entry is idempotent: for every record, path and
value, in particular every numeric literal, applying the same single entry a
second time gives the outcome of the first time (success both times, or the
same error both times) and leaves the record as the first application left
it. -/
theorem entry_idempotent (rt : Runtime) (root : GoValue) (p : Path)
    (v : RightValue) :
    (PatchIt rt (PatchIt rt root [(p, v)]).1 [(p, v)]).2
        = (PatchIt rt root [(p, v)]).2 ∧
      (PatchIt rt (PatchIt rt root [(p, v)]).1 [(p, v)]).1
        = (PatchIt rt root [(p, v)]).1 := by
  cases ha : entryApplies rt root (p, v) with
  | true =>
    obtain ⟨l, d, -, hstep⟩ := entryApplies_assign rt root (p, v) ha
    have h1 : PatchIt rt root [(p, v)] = (root.setAt l d, .success) := by
      rw [hstep root (SameShape.refl root)]; rfl
    have h2 : PatchIt rt (root.setAt l d) [(p, v)]
        = ((root.setAt l d).setAt l d, .success) := by
      rw [hstep _ (SameShape.setAt root l d)]; rfl
    rw [h1, h2, GoValue.setAt_idem]
    exact ⟨rfl, rfl⟩
  | false =>
    obtain ⟨o, -, ho⟩ := entryApplies_false rt root (p, v) ha
    rw [ho, ho]
    exact ⟨rfl, rfl⟩

/-! ## Numbers for fields that are not numeric -/

/-- Claim C13. For a located settable field whose kind is not a signed
integer, unsigned integer or floating-point kind, as a string, a boolean or a
map, or a field whose type is `json.Number` itself, `setValue` with a number
fails whatever the text of the number is, with the error of line 101, a
numeric conversion failure, and the record is unchanged. -/
theorem number_for_non_numeric_field (rt : Runtime) (root : GoValue) (p : Path)
    (name : String) (h : Handle) (hl : locateField rt root p = .ok name h)
    (hs : h.kind.isSigned = false) (hu : h.kind.isUnsigned = false)
    (hf : h.kind.isFloat = false) (d : Payload) :
    setValue rt root name h (.val NumberType d)
        = (root, some (.unsupportedKind name h h.kind.toKind)) ∧
      (PatchError.unsupportedKind name h h.kind.toKind).cause
        = .NumericConversionFailure ∧
      PatchIt rt root [(p, .val NumberType d)]
        = (root, .failure (.unsupportedKind name h h.kind.toKind)) := by
  have hsv := setValue_not_numeric rt root name h d hs hu hf
  refine ⟨hsv, rfl, ?_⟩
  rw [PatchIt, hl]
  simp only [hsv]

/-- Instances of C13: the number `30`, a valid number, for the string field
`Name`, for the field `Amount` of type `json.Number`, and for the boolean
field `Active`. -/
theorem number_for_non_numeric_field_witness :
    PatchIt asciiRuntime person [("name", numVal "30")]
      = (person, .failure (.unsupportedKind "Name"
          ⟨[0, 0], .string, "string", ⟨true, false, false⟩⟩ .string)) ∧
    PatchIt asciiRuntime vault [("amount", numVal "30")]
      = (vault, .failure (.unsupportedKind "Amount"
          ⟨[0, 2], .string, "json.Number", ⟨true, false, false⟩⟩ .string)) ∧
    PatchIt asciiRuntime vault [("active", numVal "30")]
      = (vault, .failure (.unsupportedKind "Active"
          ⟨[0, 3], .bool, "bool", ⟨true, false, false⟩⟩ .bool)) :=
  ⟨(number_for_non_numeric_field asciiRuntime person "name" "Name"
      ⟨[0, 0], .string, "string", ⟨true, false, false⟩⟩ (by decide) rfl rfl rfl
      (.str "30")).2.2,
    (number_for_non_numeric_field asciiRuntime vault "amount" "Amount"
      ⟨[0, 2], .string, "json.Number", ⟨true, false, false⟩⟩ (by decide) rfl rfl
      rfl (.str "30")).2.2,
    (number_for_non_numeric_field asciiRuntime vault "active" "Active"
      ⟨[0, 3], .bool, "bool", ⟨true, false, false⟩⟩ (by decide) rfl rfl rfl
      (.str "30")).2.2⟩

/-! ## What the errors carry -/

/-- An error of `setValue` carries the field name it was given and no path. -/
theorem setValue_error_carries (rt : Runtime) (t : GoValue) (name : String)
    (h : Handle) (v : RightValue) (e : PatchError)
    (he : (setValue rt t name h v).2 = some e) :
    e.path = none ∧ e.fieldName = some name ∧
      (e.cause = .TypeMismatch ∨ e.cause = .NumericConversionFailure) := by
  rcases h with ⟨loc, kind, ty, fl⟩
  by_cases h1 : v.typeOf = some NumberType
  · cases kind <;> simp only [setValue, h1, if_true] at he <;>
      (repeat' split at he) <;>
      simp only [Option.some.injEq, reduceCtorEq] at he <;>
      subst he <;>
      simp [PatchError.path, PatchError.fieldName, PatchError.cause]
  · rw [setValue_concrete rt t name _ v h1] at he
    cases v with
    | nil =>
      simp only [Option.some.injEq] at he
      subst he
      simp [PatchError.path, PatchError.fieldName, PatchError.cause]
    | val ty' d =>
      simp only [] at he
      split_ifs at he
      simp only [Option.some.injEq, reduceCtorEq] at he
      subst he
      simp [PatchError.path, PatchError.fieldName, PatchError.cause]

/-- The error of a single entry: an error of `locateField`, which quotes the
path, or an error of `setValue` on the located field. -/
theorem PatchIt_single_failure (rt : Runtime) (root : GoValue) (p : Path)
    (v : RightValue) (e : PatchError)
    (hf : (PatchIt rt root [(p, v)]).2 = .failure e) :
    (e.path = some p ∧
      (e.cause = .PathNotResolved ∨ e.cause = .FieldNotWritable)) ∨
    (e.path = none ∧
      (e.cause = .TypeMismatch ∨ e.cause = .NumericConversionFailure) ∧
      ∃ name h, locateField rt root p = .ok name h ∧
        e.fieldName = some name) := by
  rw [PatchIt] at hf
  cases hl : locateField rt root p with
  | panics => rw [hl] at hf; simp at hf
  | err e' =>
    rw [hl] at hf
    simp only [Outcome.failure.injEq] at hf
    subst hf
    left
    unfold locateField at hl
    split at hl
    · simp at hl
    · simp only [Located.err.injEq] at hl
      subst hl
      exact ⟨rfl, Or.inl rfl⟩
    · split_ifs at hl
      simp only [Located.err.injEq] at hl
      subst hl
      exact ⟨rfl, Or.inr rfl⟩
  | ok name h =>
    rw [hl] at hf
    simp only [] at hf
    right
    cases hs : (setValue rt root name h v).2 with
    | none =>
      have : setValue rt root name h v = ((setValue rt root name h v).1, none) := by
        rw [← hs]
      rw [this] at hf
      simp [PatchIt] at hf
    | some e' =>
      have : setValue rt root name h v = ((setValue rt root name h v).1, some e') := by
        rw [← hs]
      rw [this] at hf
      simp only [Outcome.failure.injEq] at hf
      subst hf
      obtain ⟨h1, h2, h3⟩ := setValue_error_carries rt root name h v e' hs
      exact ⟨h1, h3, name, h, rfl, h2⟩

/-- The error a call ends with is the error of one of its entries applied
alone. -/
theorem PatchIt_failure_entry (rt : Runtime) (root : GoValue) (e : PatchError)
    (es : Patch) :
    ∀ t, SameShape t root → (PatchIt rt t es).2 = .failure e →
      ∃ x ∈ es, (PatchIt rt root [x]).2 = .failure e := by
  induction es with
  | nil => intro t _ hf; simp [PatchIt] at hf
  | cons x rest ih =>
    intro t hs hf
    cases ha : entryApplies rt t x with
    | true =>
      obtain ⟨name, h, d, -, -, hstep⟩ := entryApplies_spec rt t x ha
      rw [hstep] at hf
      obtain ⟨y, hy, hy'⟩ := ih _ ((SameShape.setAt t h.loc d).trans hs) hf
      exact ⟨y, List.mem_cons_of_mem _ hy, hy'⟩
    | false =>
      obtain ⟨o, -, ho⟩ := entryApplies_false rt t x ha
      rw [ho] at hf
      refine ⟨x, List.mem_cons_self _ _, ?_⟩
      rw [← PatchIt_single_outcome_congr rt hs x, ho]
      exact hf

/-- Claim C14, amended. Every error returned by `PatchIt` comes from one
entry of the patch.  When it is an error of the locator (path not resolved,
field not writable) it carries the path of that entry exactly as the caller
gave it; when it is an error of the coercer (type mismatch, number unparsable
or out of range, kind not supported) it carries no path but the name of the
field the path of that entry resolves to. -/
theorem error_carries_path_or_field_name (rt : Runtime) (root : GoValue)
    (es : Patch) (e : PatchError) (hf : (PatchIt rt root es).2 = .failure e) :
    ∃ p v, (p, v) ∈ es ∧
      ((e.path = some p ∧
          (e.cause = .PathNotResolved ∨ e.cause = .FieldNotWritable)) ∨
        (e.path = none ∧
          (e.cause = .TypeMismatch ∨ e.cause = .NumericConversionFailure) ∧
          ∃ name h, locateField rt root p = .ok name h ∧
            e.fieldName = some name)) := by
  obtain ⟨⟨p, v⟩, hx, hx'⟩ :=
    PatchIt_failure_entry rt root e es root (SameShape.refl root) hf
  exact ⟨p, v, hx, PatchIt_single_failure rt root p v e hx'⟩

/-- The claim C14 fails: the entry `address.city` with an `int` ends in the
type-mismatch error of line 105, which carries the field name `City` and the
two types, and not the path. -/
theorem coercer_error_without_path :
    PatchIt asciiRuntime person [("address.city", intVal 1)]
      = (person, .failure (.typeMismatch "City" (some ⟨.int, "int"⟩)
          ⟨.string, "string"⟩)) ∧
    (PatchError.typeMismatch "City" (some ⟨.int, "int"⟩)
        ⟨.string, "string"⟩).path ≠ some "address.city" ∧
    (PatchError.typeMismatch "City" (some ⟨.int, "int"⟩)
        ⟨.string, "string"⟩).fieldName ≠ some "address.city" := by
  decide

/-- Instances of the amended C14: an error of the locator with its path, and
an error of the coercer with its field name. -/
theorem error_carries_path_or_field_name_witness :
    (∃ p v, (p, v) ∈ [(("unknown.field" : Path), intVal 1)] ∧
      (((PatchError.pathNotResolved "unknown.field").path = some p ∧
          ((PatchError.pathNotResolved "unknown.field").cause = .PathNotResolved ∨
            (PatchError.pathNotResolved "unknown.field").cause = .FieldNotWritable)) ∨
        ((PatchError.pathNotResolved "unknown.field").path = none ∧
          ((PatchError.pathNotResolved "unknown.field").cause = .TypeMismatch ∨
            (PatchError.pathNotResolved "unknown.field").cause
              = .NumericConversionFailure) ∧
          ∃ name h, locateField asciiRuntime person p = .ok name h ∧
            (PatchError.pathNotResolved "unknown.field").fieldName = some name))) :=
  error_carries_path_or_field_name asciiRuntime person
    [("unknown.field", intVal 1)] (.pathNotResolved "unknown.field") (by decide)

/-! ## Fields that cannot be set -/

/-- Claim C15. Writability is checked before coercion.  When the walk along
the path ends on a terminal value that `CanSet` refuses, `PatchIt` fails with
the field-not-writable error of line 62 and the record is unchanged; so
`setValue` is reached only with a handle that can be set, for which the `Set`
methods of `reflect` do not panic.  A terminal value is refused when it is
the value of an unexported field, the value of a field of a struct whose own
value is not addressable (as the record handed over by value, whose flags are
`Flags.ofValueOf`), or the value stored in an interface. -/
theorem unsettable_field_rejected (rt : Runtime) (root : GoValue) (p : Path)
    (v : RightValue) :
    (∀ h name,
      patchRecursive "" [] Flags.ofValueOf root (tokenize rt p) ""
        = .found h name →
      h.canSet = false →
      PatchIt rt root [(p, v)] = (root, .failure (.fieldNotWritable p name)) ∧
      (PatchError.fieldNotWritable p name).cause = .FieldNotWritable) ∧
    (∀ name h, locateField rt root p = .ok name h → h.canSet = true) ∧
    (∀ loc fl j name embedded k t x rest toks path,
      ∃ h, scanFields loc fl j (.cons name false embedded (.leaf k t x) rest)
          (name :: toks) path = .found h name ∧ h.canSet = false) ∧
    (∀ loc fl j name exported embedded k t x rest toks path,
      fl.addr = false →
      ∃ h, scanFields loc fl j (.cons name exported embedded (.leaf k t x) rest)
          (name :: toks) path = .found h name ∧ h.canSet = false) ∧
    Flags.ofValueOf.addr = false ∧
    (∀ fn loc fl k t x toks path,
      ∃ h, patchRecursive fn loc fl (.iface (.leaf k t x)) toks path
          = .found h fn ∧ h.canSet = false) := by
  refine ⟨?_, ?_, ?_, ?_, rfl, ?_⟩
  · intro h name hw hc
    refine ⟨?_, rfl⟩
    have hl : locateField rt root p = .err (.fieldNotWritable p name) := by
      unfold locateField
      rw [hw]
      simp [hc]
    rw [PatchIt, hl]
  · intro name h hl
    exact locateField_canSet rt root p name h hl
  · intro loc fl j name embedded k t x rest toks path
    refine ⟨⟨loc ++ [j], k, t, fl.field false embedded⟩, ?_, ?_⟩
    · simp [scanFields, patchRecursive]
    · cases embedded <;> simp [Handle.canSet, Flags.canSet, Flags.field]
  · intro loc fl j name exported embedded k t x rest toks path haddr
    refine ⟨⟨loc ++ [j], k, t, fl.field exported embedded⟩, ?_, ?_⟩
    · simp [scanFields, patchRecursive]
    · simp [Handle.canSet, Flags.canSet, Flags.field, haddr]
  · intro fn loc fl k t x toks path
    refine ⟨⟨loc ++ [0], k, t, fl.ifaceElem⟩, ?_, ?_⟩
    · simp [patchRecursive]
    · simp [Handle.canSet, Flags.canSet, Flags.ifaceElem]

/-- The three instances of C15: the unexported field `_secret`, the field
`Name` of a record handed over by value, and the `int` stored in the
interface `Extra`. -/
theorem unsettable_field_rejected_witness :
    PatchIt asciiRuntime vault [("_secret", strVal "x")]
      = (vault, .failure (.fieldNotWritable "_secret" "_secret")) ∧
    PatchIt asciiRuntime personByValue [("name", strVal "Alice")]
      = (personByValue, .failure (.fieldNotWritable "name" "Name")) ∧
    PatchIt asciiRuntime vault [("extra", intVal 7)]
      = (vault, .failure (.fieldNotWritable "extra" "Extra")) :=
  ⟨((unsettable_field_rejected asciiRuntime vault "_secret" (strVal "x")).1
      ⟨[0, 0], .string, "string", ⟨true, true, false⟩⟩ "_secret"
      (by decide) (by decide)).1,
    ((unsettable_field_rejected asciiRuntime personByValue "name"
      (strVal "Alice")).1
      ⟨[0], .string, "string", ⟨false, false, false⟩⟩ "Name"
      (by decide) (by decide)).1,
    ((unsettable_field_rejected asciiRuntime vault "extra" (intVal 7)).1
      ⟨[0, 1, 0], .int, "int", ⟨false, false, false⟩⟩ "Extra"
      (by decide) (by decide)).1⟩

/-! ## Tokens beyond a terminal value -/

theorem splitDotAux_append (a b : List Char) :
    ∀ cur, splitDotAux (a ++ '.' :: b) cur
      = splitDotAux a cur ++ splitDotAux b [] := by
  induction a with
  | nil => intro cur; simp [splitDotAux]
  | cons c a ih =>
    intro cur
    rw [List.cons_append, splitDotAux, splitDotAux]
    by_cases hc : c = '.'
    · rw [if_pos hc, if_pos hc, ih]; rfl
    · rw [if_neg hc, if_neg hc, ih]

/-- The tokens of a path extended by a delimiter and further text are the
tokens of the path followed by the tokens of the further text. -/
theorem tokenize_extend (rt : Runtime) (p q : Path) :
    tokenize rt (p ++ "." ++ q) = tokenize rt p ++ tokenize rt q := by
  unfold tokenize splitDot
  have hd : (p ++ "." ++ q).data = p.data ++ '.' :: q.data := by
    simp [String.data_append]
  rw [hd, splitDotAux_append, List.map_append]

mutual
/-- A walk that ends on a terminal value ends on it whatever tokens follow. -/
theorem patchRecursive_extra_tokens (v : GoValue) (fn : String)
    (loc : List Nat) (fl : Flags) (toks extra : List String) (path : String)
    (h : Handle) (name : String)
    (hw : patchRecursive fn loc fl v toks path = .found h name) :
    patchRecursive fn loc fl v (toks ++ extra) path = .found h name := by
  cases v with
  | invalid => simp [patchRecursive] at hw
  | seq s x => simp [patchRecursive] at hw
  | leaf k t x => simpa [patchRecursive] using hw
  | ptr e =>
    simp only [patchRecursive] at hw ⊢
    exact patchRecursive_extra_tokens e fn _ _ toks extra path h name hw
  | iface e =>
    simp only [patchRecursive] at hw ⊢
    exact patchRecursive_extra_tokens e fn _ _ toks extra path h name hw
  | struct fs =>
    simp only [patchRecursive] at hw ⊢
    exact scanFields_extra_tokens fs loc fl 0 toks extra path h name hw
/-- The same for the scan of the fields of a struct. -/
theorem scanFields_extra_tokens (fs : Fields) (loc : List Nat) (fl : Flags)
    (j : Nat) (toks extra : List String) (path : String) (h : Handle)
    (name : String) (hw : scanFields loc fl j fs toks path = .found h name) :
    scanFields loc fl j fs (toks ++ extra) path = .found h name := by
  cases fs with
  | nil => simp [scanFields] at hw
  | cons n ex em v rest =>
    cases toks with
    | nil => simp [scanFields] at hw
    | cons tok toks =>
      simp only [List.cons_append, scanFields] at hw ⊢
      split
      · rename_i hn
        rw [if_pos hn] at hw
        exact patchRecursive_extra_tokens v n _ _ toks extra _ h name hw
      · rename_i hn
        rw [if_neg hn] at hw
        exact scanFields_extra_tokens rest loc fl (j + 1) (tok :: toks) extra
          path h name hw
end

/-- Claim C16. Excess tokens are silently ignored.  When the walk along a
path `p` ends on a terminal value, the walk along `p` extended by a delimiter
and any further text (`p.x`, `p.x.y`, `p.`) ends on the same handle with the
same field name; `PatchIt` with the extended path and a value leaves the
record that `PatchIt` with `p` and that value leaves, and ends alike.  When
the field can be set the two calls return the same, error included; when it
cannot, both fail with the field-not-writable error, each quoting the path it
was given. -/
theorem excess_tokens_ignored (rt : Runtime) (root : GoValue) (p q : Path)
    (v : RightValue) (h : Handle) (name : String)
    (hw : patchRecursive "" [] Flags.ofValueOf root (tokenize rt p) ""
      = .found h name) :
    tokenize rt (p ++ "." ++ q) = tokenize rt p ++ tokenize rt q ∧
    patchRecursive "" [] Flags.ofValueOf root (tokenize rt (p ++ "." ++ q)) ""
      = .found h name ∧
    (PatchIt rt root [(p ++ "." ++ q, v)]).1 = (PatchIt rt root [(p, v)]).1 ∧
    (PatchIt rt root [(p ++ "." ++ q, v)]).2.cause
      = (PatchIt rt root [(p, v)]).2.cause ∧
    (h.canSet = true →
      locateField rt root (p ++ "." ++ q) = .ok name h ∧
      locateField rt root p = .ok name h ∧
      PatchIt rt root [(p ++ "." ++ q, v)] = PatchIt rt root [(p, v)]) ∧
    (h.canSet = false →
      PatchIt rt root [(p, v)] = (root, .failure (.fieldNotWritable p name)) ∧
      PatchIt rt root [(p ++ "." ++ q, v)]
        = (root, .failure (.fieldNotWritable (p ++ "." ++ q) name))) := by
  have ht := tokenize_extend rt p q
  have hw' : patchRecursive "" [] Flags.ofValueOf root
      (tokenize rt (p ++ "." ++ q)) "" = .found h name := by
    rw [ht]
    exact patchRecursive_extra_tokens root "" [] _ _ _ "" h name hw
  have hset : h.canSet = true →
      locateField rt root (p ++ "." ++ q) = .ok name h ∧
      locateField rt root p = .ok name h ∧
      PatchIt rt root [(p ++ "." ++ q, v)] = PatchIt rt root [(p, v)] := by
    intro hc
    have h1 : locateField rt root (p ++ "." ++ q) = .ok name h := by
      unfold locateField; rw [hw']; simp [hc]
    have h2 : locateField rt root p = .ok name h := by
      unfold locateField; rw [hw]; simp [hc]
    refine ⟨h1, h2, ?_⟩
    rw [PatchIt, PatchIt, h1, h2]
  have hnot : h.canSet = false →
      PatchIt rt root [(p, v)] = (root, .failure (.fieldNotWritable p name)) ∧
      PatchIt rt root [(p ++ "." ++ q, v)]
        = (root, .failure (.fieldNotWritable (p ++ "." ++ q) name)) := by
    intro hc
    have h1 : locateField rt root (p ++ "." ++ q)
        = .err (.fieldNotWritable (p ++ "." ++ q) name) := by
      unfold locateField; rw [hw']; simp [hc]
    have h2 : locateField rt root p = .err (.fieldNotWritable p name) := by
      unfold locateField; rw [hw]; simp [hc]
    rw [PatchIt, PatchIt, h1, h2]
    exact ⟨rfl, rfl⟩
  refine ⟨ht, hw', ?_, ?_, hset, hnot⟩
  · cases hc : h.canSet with
    | true => rw [(hset hc).2.2]
    | false => rw [(hnot hc).1, (hnot hc).2]
  · cases hc : h.canSet with
    | true => rw [(hset hc).2.2]
    | false => rw [(hnot hc).1, (hnot hc).2]; rfl

/-- Instances of C16: `name.x.y` and `name.` address the field that `name`
addresses. -/
theorem excess_tokens_ignored_witness :
    PatchIt asciiRuntime person [("name" ++ "." ++ "x.y", strVal "Alice")]
      = PatchIt asciiRuntime person [("name", strVal "Alice")] ∧
    PatchIt asciiRuntime person [("name" ++ "." ++ "", strVal "Alice")]
      = PatchIt asciiRuntime person [("name", strVal "Alice")] ∧
    PatchIt asciiRuntime person [("name", strVal "Alice")]
      = (personWith "Alice" 0 "", .success) :=
  ⟨((excess_tokens_ignored asciiRuntime person "name" "x.y" (strVal "Alice")
      ⟨[0, 0], .string, "string", ⟨true, false, false⟩⟩ "Name"
      (by decide)).2.2.2.2.1 (by decide)).2.2,
    ((excess_tokens_ignored asciiRuntime person "name" "" (strVal "Alice")
      ⟨[0, 0], .string, "string", ⟨true, false, false⟩⟩ "Name"
      (by decide)).2.2.2.2.1 (by decide)).2.2,
    by decide⟩

/-! ## Pointers and interfaces -/

mutual
/-- The position and the flags a walk starts with, and the path accumulated
so far, have no part in whether it finds a field, nor in the name, the kind
and the type of the field found. -/
theorem patchRecursive_erase (v : GoValue) (fn : String) (loc loc' : List Nat)
    (fl fl' : Flags) (toks : List String) (path path' : String) :
    (patchRecursive fn loc fl v toks path).erase
      = (patchRecursive fn loc' fl' v toks path').erase := by
  cases v with
  | invalid => simp [patchRecursive]
  | seq s x => simp [patchRecursive]
  | leaf k t x => simp [patchRecursive, Walk.erase]
  | ptr e =>
    simp only [patchRecursive]
    exact patchRecursive_erase e fn _ _ _ _ toks path path'
  | iface e =>
    simp only [patchRecursive]
    exact patchRecursive_erase e fn _ _ _ _ toks path path'
  | struct fs =>
    simp only [patchRecursive]
    exact scanFields_erase fs loc loc' fl fl' 0 0 toks path path'
/-- The same for the scan of the fields of a struct. -/
theorem scanFields_erase (fs : Fields) (loc loc' : List Nat) (fl fl' : Flags)
    (j j' : Nat) (toks : List String) (path path' : String) :
    (scanFields loc fl j fs toks path).erase
      = (scanFields loc' fl' j' fs toks path').erase := by
  cases fs with
  | nil => simp [scanFields]
  | cons n ex em v rest =>
    cases toks with
    | nil => simp [scanFields]
    | cons tok toks =>
      simp only [scanFields]
      split
      · exact patchRecursive_erase v n _ _ _ _ toks _ _
      · exact scanFields_erase rest loc loc' fl fl' _ _ (tok :: toks) path path'
end

/-- Claim C17. Pointer and interface indirection consumes no token.  The
walk from a pointer or an interface is the walk from its `Elem()` with the
same tokens and the same field name; whether a field is found, and its name,
kind and type, are those of a walk from the referred value started with any
position and flags.  The `Elem()` of a nil pointer or of an empty interface
is invalid, the walk gives no handle, and `PatchIt` fails with the
path-not-resolved error and leaves the record. -/
theorem indirection_consumes_no_token (fn : String) (loc : List Nat)
    (fl : Flags) (e : GoValue) (toks : List String) (path : String) :
    patchRecursive fn loc fl (.ptr e) toks path
      = patchRecursive fn (loc ++ [0]) fl.ptrElem e toks path ∧
    patchRecursive fn loc fl (.iface e) toks path
      = patchRecursive fn (loc ++ [0]) fl.ifaceElem e toks path ∧
    (∀ loc' fl', (patchRecursive fn loc fl (.ptr e) toks path).erase
      = (patchRecursive fn loc' fl' e toks path).erase) ∧
    (∀ loc' fl', (patchRecursive fn loc fl (.iface e) toks path).erase
      = (patchRecursive fn loc' fl' e toks path).erase) ∧
    patchRecursive fn loc fl (.ptr .invalid) toks path = .notFound ∧
    patchRecursive fn loc fl (.iface .invalid) toks path = .notFound ∧
    (∀ (rt : Runtime) (p : Path) (v : RightValue),
      PatchIt rt (.ptr .invalid) [(p, v)]
        = (.ptr .invalid, .failure (.pathNotResolved p)) ∧
      PatchIt rt (.iface .invalid) [(p, v)]
        = (.iface .invalid, .failure (.pathNotResolved p))) := by
  refine ⟨rfl, rfl, ?_, ?_, rfl, rfl, ?_⟩
  · intro loc' fl'
    simp only [patchRecursive]
    exact patchRecursive_erase e fn _ _ _ _ toks path path
  · intro loc' fl'
    simp only [patchRecursive]
    exact patchRecursive_erase e fn _ _ _ _ toks path path
  · intro rt p v
    exact ⟨PatchIt_notFound rt _ p v [] rfl, PatchIt_notFound rt _ p v [] rfl⟩

/-! ## The tokenizer -/

theorem splitDotAux_length (cs : List Char) :
    ∀ cur, (splitDotAux cs cur).length = cs.count '.' + 1 := by
  induction cs with
  | nil => intro cur; simp [splitDotAux]
  | cons c cs ih =>
    intro cur
    rw [splitDotAux]
    by_cases hc : c = '.'
    · subst hc
      rw [if_pos rfl, List.length_cons, ih, List.count_cons_self]
    · rw [if_neg hc, ih, List.count_cons_of_ne (Ne.symm hc)]

theorem splitDotAux_no_dot (cs : List Char) :
    ∀ cur, (∀ c ∈ cur, c ≠ '.') →
      ∀ s ∈ splitDotAux cs cur, '.' ∉ s.data := by
  induction cs with
  | nil =>
    intro cur hcur s hs
    simp only [splitDotAux, List.mem_singleton] at hs
    subst hs
    intro hmem
    exact hcur '.' (List.mem_reverse.mp hmem) rfl
  | cons c cs ih =>
    intro cur hcur s hs
    rw [splitDotAux] at hs
    by_cases hc : c = '.'
    · rw [if_pos hc] at hs
      rcases List.mem_cons.mp hs with rfl | hs
      · intro hmem
        exact hcur '.' (List.mem_reverse.mp hmem) rfl
      · exact ih [] (by simp) s hs
    · rw [if_neg hc] at hs
      refine ih (c :: cur) ?_ s hs
      intro x hx
      rcases List.mem_cons.mp hx with rfl | hx
      · exact hc
      · exact hcur x hx

theorem intercalate_cons_cons (sep x y : List Char) (ys : List (List Char)) :
    List.intercalate sep (x :: y :: ys)
      = x ++ sep ++ List.intercalate sep (y :: ys) := by
  simp [List.intercalate, List.intersperse]

/-- Joining the segments with the delimiter gives the text back. -/
theorem splitDotAux_join (cs : List Char) :
    ∀ cur, List.intercalate ['.'] ((splitDotAux cs cur).map String.data)
      = cur.reverse ++ cs := by
  induction cs with
  | nil => intro cur; simp [splitDotAux, List.intercalate, List.intersperse]
  | cons c cs ih =>
    intro cur
    rw [splitDotAux]
    by_cases hc : c = '.'
    · subst hc
      rw [if_pos rfl]
      obtain ⟨seg, rest, hr⟩ := splitDotAux_cons cs []
      have := ih []
      rw [hr] at this ⊢
      simp only [List.map_cons] at this ⊢
      rw [intercalate_cons_cons, this]
      simp
    · rw [if_neg hc, ih]
      simp

theorem upperFirst_empty (rt : Runtime) : upperFirst rt "" = "" := rfl

/-- A token is left as it is by a second upper-casing of its first
character. -/
theorem upperFirst_idem (rt : Runtime)
    (hup : ∀ c, rt.toUpper (rt.toUpper c) = rt.toUpper c) (s : String) :
    upperFirst rt (upperFirst rt s) = upperFirst rt s := by
  obtain ⟨data⟩ := s
  cases data with
  | nil => rfl
  | cons c r => rw [upperFirst_mk_cons, upperFirst_mk_cons, hup]

theorem upperFirst_no_dot (rt : Runtime)
    (hdot : ∀ c, c ≠ '.' → rt.toUpper c ≠ '.') (s : String)
    (hs : '.' ∉ s.data) : '.' ∉ (upperFirst rt s).data := by
  obtain ⟨data⟩ := s
  cases data with
  | nil => simp [upperFirst]
  | cons c r =>
    rw [upperFirst_mk_cons]
    simp only [List.mem_cons, not_or] at hs ⊢
    exact ⟨fun h => hdot c (Ne.symm hs.1) h.symm, hs.2⟩

/-- Claim C18. The tokens of a path are its segments between the delimiters
`.`, in order, each with its first code point upper-cased and the rest as it
is: the segments joined by `.` give the path back and contain no `.`; there
is one token more than there are `.` in the path; no token contains `.`; the
empty segment stays empty and the empty path has the single token `""`; and
every token is left unchanged by a second upper-casing of its first
character.  (Of `unicode.ToUpper` it is used that it is idempotent and gives
`.` for no other character.) -/
theorem tokenize_spec (rt : Runtime)
    (hup : ∀ c, rt.toUpper (rt.toUpper c) = rt.toUpper c)
    (hdot : ∀ c, c ≠ '.' → rt.toUpper c ≠ '.') (p : Path) :
    tokenize rt p = (splitDot p).map (upperFirst rt) ∧
    List.intercalate ['.'] ((splitDot p).map String.data) = p.data ∧
    (∀ s ∈ splitDot p, '.' ∉ s.data) ∧
    upperFirst rt "" = "" ∧
    (∀ c r, upperFirst rt (String.mk (c :: r)) = String.mk (rt.toUpper c :: r)) ∧
    (tokenize rt p).length = p.data.count '.' + 1 ∧
    (∀ t ∈ tokenize rt p, '.' ∉ t.data) ∧
    tokenize rt "" = [""] ∧
    (∀ t ∈ tokenize rt p, upperFirst rt t = t) := by
  refine ⟨rfl, ?_, ?_, rfl, fun _ _ => rfl, ?_, ?_, rfl, ?_⟩
  · simpa [splitDot] using splitDotAux_join p.data []
  · exact splitDotAux_no_dot p.data [] (by simp)
  · simp only [tokenize, splitDot, List.length_map]
    exact splitDotAux_length p.data []
  · intro t ht
    simp only [tokenize, List.mem_map] at ht
    obtain ⟨s, hs, rfl⟩ := ht
    exact upperFirst_no_dot rt hdot s (splitDotAux_no_dot p.data [] (by simp) s hs)
  · intro t ht
    simp only [tokenize, List.mem_map] at ht
    obtain ⟨s, hs, rfl⟩ := ht
    exact upperFirst_idem rt hup s

theorem asciiRuntime_no_dot (c : Char) (hc : c ≠ '.') :
    asciiRuntime.toUpper c ≠ '.' := by
  show Char.toUpper c ≠ '.'
  by_cases h : 97 ≤ c.toNat ∧ c.toNat ≤ 122
  · have h1 : Char.toUpper c = Char.ofNat (c.toNat - 32) := by
      unfold Char.toUpper
      simp only [ge_iff_le]
      rw [if_pos h]
    have h2 := ofNat_toNat_upper c.toNat h
    rw [h1]
    intro heq
    rw [heq] at h2
    have : '.'.toNat = 46 := rfl
    omega
  · have h1 : Char.toUpper c = c := by
      unfold Char.toUpper
      simp only [ge_iff_le]
      rw [if_neg h]
    rw [h1]; exact hc

/-- Instances of C18: the tokens of `address.city`, of a path with an empty
segment, and of a path that ends with the delimiter. -/
theorem tokenize_spec_witness :
    tokenize asciiRuntime "address.city" = ["Address", "City"] ∧
    tokenize asciiRuntime "a..b" = ["A", "", "B"] ∧
    tokenize asciiRuntime "name." = ["Name", ""] ∧
    (tokenize asciiRuntime "address.city").length
      = "address.city".data.count '.' + 1 ∧
    (∀ t ∈ tokenize asciiRuntime "address.city",
      upperFirst asciiRuntime t = t) :=
  ⟨by decide, by decide, by decide,
    (tokenize_spec asciiRuntime asciiRuntime_idempotent asciiRuntime_no_dot
      "address.city").2.2.2.2.2.1,
    (tokenize_spec asciiRuntime asciiRuntime_idempotent asciiRuntime_no_dot
      "address.city").2.2.2.2.2.2.2.2⟩

/-! ## The shape of the record -/

mutual
/-- An assignment changes data only: the shape of the record stays. -/
theorem GoValue.eraseData_setAt (v : GoValue) (l : List Nat) (d : Payload) :
    (v.setAt l d).eraseData = v.eraseData := by
  cases v with
  | invalid => cases l <;> simp [GoValue.setAt]
  | seq s y => cases l <;> simp [GoValue.setAt]
  | leaf k t y => cases l <;> simp [GoValue.setAt, GoValue.eraseData]
  | ptr e =>
    cases l with
    | nil => simp [GoValue.setAt]
    | cons i l =>
      cases i with
      | zero =>
        simp only [GoValue.setAt, GoValue.eraseData]
        rw [GoValue.eraseData_setAt e l d]
      | succ i => simp [GoValue.setAt]
  | iface e =>
    cases l with
    | nil => simp [GoValue.setAt]
    | cons i l =>
      cases i with
      | zero =>
        simp only [GoValue.setAt, GoValue.eraseData]
        rw [GoValue.eraseData_setAt e l d]
      | succ i => simp [GoValue.setAt]
  | struct fs =>
    cases l with
    | nil => simp [GoValue.setAt]
    | cons i l =>
      simp only [GoValue.setAt, GoValue.eraseData]
      rw [Fields.eraseData_setAt_below fs i l d]
/-- The same below the fields of a struct. -/
theorem Fields.eraseData_setAt_below (fs : Fields) (i : Nat) (l : List Nat)
    (d : Payload) : (fs.setAt i l d).eraseData = fs.eraseData := by
  cases fs with
  | nil => simp [Fields.setAt]
  | cons n ex em v rest =>
    cases i with
    | zero =>
      simp only [Fields.setAt, Fields.eraseData]
      rw [GoValue.eraseData_setAt v l d]
    | succ i =>
      simp only [Fields.setAt, Fields.eraseData]
      rw [Fields.eraseData_setAt_below rest i l d]
end

mutual
/-- The walk reads the shape of the record only. -/
theorem patchRecursive_eraseData (v : GoValue) (fn : String) (loc : List Nat)
    (fl : Flags) (toks : List String) (path : String) :
    patchRecursive fn loc fl v.eraseData toks path
      = patchRecursive fn loc fl v toks path := by
  cases v with
  | invalid => rfl
  | seq s x => rfl
  | leaf k t x => rfl
  | ptr e =>
    simp only [GoValue.eraseData, patchRecursive]
    exact patchRecursive_eraseData e fn _ _ toks path
  | iface e =>
    simp only [GoValue.eraseData, patchRecursive]
    exact patchRecursive_eraseData e fn _ _ toks path
  | struct fs =>
    simp only [GoValue.eraseData, patchRecursive]
    exact scanFields_eraseData fs loc fl 0 toks path
/-- The scan of the fields of a struct reads their shape only. -/
theorem scanFields_eraseData (fs : Fields) (loc : List Nat) (fl : Flags)
    (j : Nat) (toks : List String) (path : String) :
    scanFields loc fl j fs.eraseData toks path
      = scanFields loc fl j fs toks path := by
  cases fs with
  | nil => rfl
  | cons n ex em v rest =>
    cases toks with
    | nil => rfl
    | cons tok toks =>
      simp only [Fields.eraseData, scanFields]
      split
      · exact patchRecursive_eraseData v n _ _ toks _
      · exact scanFields_eraseData rest loc fl (j + 1) (tok :: toks) path
end

/-- Records of one shape give every walk the same result. -/
theorem SameShape.of_eraseData {t t' : GoValue}
    (h : t.eraseData = t'.eraseData) : SameShape t t' := by
  intro fn loc fl toks path
  rw [← patchRecursive_eraseData t, ← patchRecursive_eraseData t', h]

/-- The record `PatchIt` leaves has the shape of the record it was given. -/
theorem PatchIt_eraseData (rt : Runtime) (es : Patch) :
    ∀ t, (PatchIt rt t es).1.eraseData = t.eraseData := by
  induction es with
  | nil => intro t; rfl
  | cons e rest ih =>
    intro t
    cases ha : entryApplies rt t e with
    | true =>
      obtain ⟨name, h, d, -, -, hstep⟩ := entryApplies_spec rt t e ha
      rw [hstep, ih, GoValue.eraseData_setAt]
    | false =>
      obtain ⟨o, -, ho⟩ := entryApplies_false rt t e ha
      rw [ho]

/-- Claim C19. `PatchIt` preserves the shape of the record.  After any call,
successful or not, the record differs from the record given at most in the
data of terminal values, and every walk gives the result it gave before: the
same handle (position, kind, type, flags) with the same field name, or no
handle.  Hence `locateField` resolves every path as before, and the outcome
of an entry, with its cause, is the same before and after the call, and the
same on any two records of one shape whatever data their terminal values
hold. -/
theorem PatchIt_preserves_shape (rt : Runtime) (root : GoValue) (es : Patch) :
    (PatchIt rt root es).1.eraseData = root.eraseData ∧
    (∀ fn loc fl toks path,
      patchRecursive fn loc fl (PatchIt rt root es).1 toks path
        = patchRecursive fn loc fl root toks path) ∧
    (∀ p, locateField rt (PatchIt rt root es).1 p = locateField rt root p) ∧
    (∀ e, (PatchIt rt (PatchIt rt root es).1 [e]).2 = (PatchIt rt root [e]).2) ∧
    (∀ t', t'.eraseData = root.eraseData →
      ∀ e, (PatchIt rt t' [e]).2 = (PatchIt rt root [e]).2) := by
  have hs : SameShape (PatchIt rt root es).1 root :=
    SameShape.of_eraseData (PatchIt_eraseData rt es root)
  exact ⟨PatchIt_eraseData rt es root, hs, fun p => locateField_congr rt hs p,
    fun e => PatchIt_single_outcome_congr rt hs e,
    fun t' ht e =>
      PatchIt_single_outcome_congr rt (SameShape.of_eraseData ht) e⟩

/-- An instance of C19: the entry that overflows `Age` fails in the same way
on the record before any patch and on a record that holds other data. -/
theorem PatchIt_preserves_shape_witness :
    (PatchIt asciiRuntime (personWith "Bob" 5 "Paris")
        [("age", numVal "99999999999999")]).2
      = (PatchIt asciiRuntime person [("age", numVal "99999999999999")]).2 ∧
    (PatchIt asciiRuntime person [("name", strVal "Alice")]).1.eraseData
      = person.eraseData :=
  ⟨(PatchIt_preserves_shape asciiRuntime person []).2.2.2.2
      (personWith "Bob" 5 "Paris") (by decide) ("age", numVal "99999999999999"),
    (PatchIt_preserves_shape asciiRuntime person
      [("name", strVal "Alice")]).1⟩

/-! ## The frame of an assignment -/

/-- Claim C20. A successful `PatchIt` with a single entry changes only the
terminal value the path resolves to: the path is located at a settable
handle, and every terminal value at another position of the record holds
after the call the data it held before. -/
theorem only_addressed_field_changes (rt : Runtime) (root : GoValue)
    (p : Path) (v : RightValue)
    (hs : (PatchIt rt root [(p, v)]).2 = .success) :
    ∃ name h, locateField rt root p = .ok name h ∧
      ∀ l', l' ≠ h.loc → ∀ k t x, root.getAt l' = some (.leaf k t x) →
        (PatchIt rt root [(p, v)]).1.getAt l' = some (.leaf k t x) := by
  cases ha : entryApplies rt root (p, v) with
  | false =>
    obtain ⟨o, hne, ho⟩ := entryApplies_false rt root (p, v) ha
    rw [ho] at hs
    exact absurd hs hne
  | true =>
    obtain ⟨name, h, d, hl, -, hstep⟩ := entryApplies_spec rt root (p, v) ha
    refine ⟨name, h, hl, fun l' hne k t x hg => ?_⟩
    rw [hstep]
    exact GoValue.getAt_setAt_other root h.loc l' k t x d hg (Ne.symm hne)

/-- An instance of C20: the patch `{"age": 30}` leaves `Name` and
`Address.City` as they were. -/
theorem only_addressed_field_changes_witness :
    ∃ name h, locateField asciiRuntime (personWith "Bob" 5 "Paris") "age"
        = .ok name h ∧
      ∀ l', l' ≠ h.loc → ∀ k t x,
        (personWith "Bob" 5 "Paris").getAt l' = some (.leaf k t x) →
        (PatchIt asciiRuntime (personWith "Bob" 5 "Paris")
          [("age", numVal "30")]).1.getAt l' = some (.leaf k t x) :=
  only_addressed_field_changes asciiRuntime (personWith "Bob" 5 "Paris") "age"
    (numVal "30") (by decide)

end Patcher
